import Mathlib

/-!
Verification development for the `mediainfo` command-line media inspector
(`src/main.rs`).  The Rust source is shallowly embedded below:

* Rust `u64`/`u32` values are modelled as `ℕ`; the saturating float-to-int
  casts (`as u64`, `as u32`, saturating since Rust 1.45) are modelled
  explicitly by `f64ToU64` / `f64ToU32`.
* Rust `f64` arithmetic is modelled by exact rational arithmetic `ℚ`.
  The display formatters `format!("{:.2}", x)` / `format!("{:.0}", x)` round
  to the given number of decimals with ties to even, which is what Rust's
  float formatting performs on the exact value of the binary float; the
  binary-representation error of `f64` itself (≤ 2⁻⁵² relative) is not
  modelled.  `str::parse::<f64>` / `parse::<u64>` are modelled on the plain
  decimal forms `digits[.digits]` that actually occur in this program.
* Rust strings are Lean `String`s (`List Char`); `split(':')`,
  `split_whitespace` and substring containment are modelled directly on the
  character lists (UTF-8 byte-wise operations coincide with character-wise
  ones on valid UTF-8).
* Filesystem, subprocess, and serde I/O are external collaborators: their
  outcomes enter the embedded functions as explicit arguments (file size and
  mtime for `fs::metadata`, an `Except` value for the `ffprobe` invocation,
  a `String → Option Cache` deserializer for `serde_json::from_str`, an
  `Except` value for the cache-file write).
-/

namespace Mediainfo

/-! ### Decimal digits, `format!("{}")` and `parse` -/

/-- The character for a single decimal digit (`'0'`–`'9'`). -/
def digitChar (d : ℕ) : Char :=
  match d with
  | 0 => '0' | 1 => '1' | 2 => '2' | 3 => '3' | 4 => '4'
  | 5 => '5' | 6 => '6' | 7 => '7' | 8 => '8' | 9 => '9'
  | _ => '*'

/-- Least-significant-first decimal digits of `n`, with structural fuel so
that the definition reduces in the kernel.  `natDigitsRevAux fuel n` is the
full digit list whenever `n < 10 ^ fuel`. -/
def natDigitsRevAux : ℕ → ℕ → List ℕ
  | 0, _ => []
  | fuel + 1, n => if n = 0 then [] else n % 10 :: natDigitsRevAux fuel (n / 10)

/-- Decimal representation of a natural number, modelling Rust's
`format!("{}", n)` for unsigned integers.  Fuel 30 covers every value that
occurs in this program (all are `< 10^30`). -/
def natRepr (n : ℕ) : String :=
  if n = 0 then "0" else ⟨((natDigitsRevAux 30 n).reverse.map digitChar)⟩

/-- Decimal representation of a signed integer (Rust `format!("{}", i)` for
`i32`). -/
def intRepr (i : ℤ) : String :=
  if i < 0 then "-" ++ natRepr i.natAbs else natRepr i.toNat

/-- Rust `format!("{:02}", n)`: pad with a leading zero to width 2; numbers
with more than two digits are printed in full. -/
def pad2 (n : ℕ) : String :=
  if n < 10 then "0" ++ natRepr n else natRepr n

/-- Model of Rust `str::parse::<u64>()` restricted to the plain all-digit
decimal forms used in this program (no `+` sign, no overflow check: all
parsed values in this development are below `2^64`). -/
def parseNat? (s : String) : Option ℕ :=
  if s.data ≠ [] ∧ s.data.all (·.isDigit) then
    some (s.data.foldl (fun a c => a * 10 + (c.toNat - 48)) 0)
  else
    none

/-- Split a character list at every occurrence of `sep` (Rust
`str::split(sep)`): adjacent, leading and trailing separators produce empty
pieces, and the empty string yields one empty piece. -/
def splitCharAux (sep : Char) : List Char → List Char → List (List Char)
  | [], acc => [acc.reverse]
  | c :: rest, acc =>
    if c = sep then acc.reverse :: splitCharAux sep rest []
    else splitCharAux sep rest (c :: acc)

/-- Rust `str::split(sep)` collected to a list. -/
def splitOnChar (sep : Char) (s : String) : List String :=
  (splitCharAux sep s.data []).map (fun l => ⟨l⟩)

/-- Rust `str::split_whitespace()`: tokens separated by runs of whitespace,
with no empty tokens. -/
def splitWsAux : List Char → List Char → List (List Char)
  | [], [] => []
  | [], acc => [acc.reverse]
  | c :: rest, acc =>
    if c.isWhitespace then
      (if acc.isEmpty then splitWsAux rest [] else acc.reverse :: splitWsAux rest [])
    else splitWsAux rest (c :: acc)

/-- Rust `str::split_whitespace()` collected to a list. -/
def splitWs (s : String) : List String :=
  (splitWsAux s.data []).map (fun l => ⟨l⟩)

/-- Model of Rust `str::parse::<f64>()` on the decimal forms
`digits[.digits]` produced and consumed by this program, as an exact
rational.  (Rust's parser also accepts signs, exponents and `inf`/`NaN`;
none of those forms are produced by the formatters of this program.) -/
def parseF64? (s : String) : Option ℚ :=
  match splitOnChar '.' s with
  | [w] => (parseNat? w).map (fun n => (n : ℚ))
  | [w, f] =>
    match parseNat? w, parseNat? f with
    | some n, some m => some ((n : ℚ) + (m : ℚ) / 10 ^ f.length)
    | _, _ => none
  | _ => none

/-! ### Float formatting and casts -/

/-- Round to the nearest integer, ties to even — the rounding Rust's float
formatter applies to the exact value when a precision is requested. -/
def rhe (q : ℚ) : ℤ :=
  if q - ⌊q⌋ < 1 / 2 then ⌊q⌋
  else if 1 / 2 < q - ⌊q⌋ then ⌊q⌋ + 1
  else if Even ⌊q⌋ then ⌊q⌋ else ⌊q⌋ + 1

/-- Rust `format!("{:.2}", q)` for non-negative `q`: two decimals, ties to
even. -/
def fmt2 (q : ℚ) : String :=
  let n := (rhe (q * 100)).toNat
  natRepr (n / 100) ++ "." ++ pad2 (n % 100)

/-- Rust `format!("{:.0}", q)` for non-negative `q`: nearest integer, ties
to even, no decimal point. -/
def fmt0 (q : ℚ) : String :=
  natRepr (rhe q).toNat

/-- Rust `expr as u64` on an `f64`: truncate toward zero, saturate at the
ends (negative values to 0, large values to `2^64 - 1`). -/
def f64ToU64 (q : ℚ) : ℕ :=
  min ⌊q⌋.toNat (2 ^ 64 - 1)

/-- Rust `expr as u32` on an `f64`: truncate toward zero, saturate. -/
def f64ToU32 (q : ℚ) : ℕ :=
  min ⌊q⌋.toNat (2 ^ 32 - 1)

/-- Rust `%` on non-negative `f64` operands (`x - y * trunc (x / y)`; on the
non-negative values used here truncation and floor agree). -/
def qmod (x y : ℚ) : ℚ :=
  x - y * ⌊x / y⌋

/-- Substring test `startsWithChars l p`: does `l` start with `p`? -/
def startsWithChars : List Char → List Char → Bool
  | _, [] => true
  | [], _ :: _ => false
  | h :: hs, p :: ps => h = p && startsWithChars hs ps

/-- Rust `str::contains(pat)`: substring containment. -/
def hasSub : List Char → List Char → Bool
  | [], pat => pat.isEmpty
  | h :: t, pat => startsWithChars (h :: t) pat || hasSub t pat

/-- Rust `str::contains` on strings. -/
def strContains (hay pat : String) : Bool :=
  hasSub hay.data pat.data

/-- Rust `str::to_lowercase()` (ASCII-faithful model). -/
def strToLower (s : String) : String :=
  ⟨s.data.map Char.toLower⟩

/-! ### Data model (`FFProbeOutput`, `Cache`) — src/main.rs lines 49–85 -/

/-- One probed stream (relevant subset of ffprobe's output). -/
structure Stream where
  codec_type : String
  codec_name : Option String := none
  profile : Option String := none
  width : Option ℤ := none
  height : Option ℤ := none
  r_frame_rate : Option String := none
  bit_rate : Option String := none
  pix_fmt : Option String := none
  channels : Option ℤ := none
deriving DecidableEq

/-- Container-level metadata (ffprobe `format` section). -/
structure Format where
  filename : String
  size : String
  duration : String
  bit_rate : Option String := none
deriving DecidableEq

/-- A full probe result. -/
structure FFProbeOutput where
  streams : List Stream
  format : Format
deriving DecidableEq

/-- One cache entry: change-detection signature plus the cached probe. -/
structure CacheEntry where
  signature : String
  probe_data : FFProbeOutput
deriving DecidableEq

/-- The cache: canonical-path string → entry.  The Rust `HashMap` is
modelled as an association list in which an inserted key shadows any older
binding (lookup takes the first match), which realises the map semantics. -/
structure Cache where
  entries : List (String × CacheEntry)
deriving DecidableEq

/-- `HashMap::get`. -/
def Cache.find? (c : Cache) (key : String) : Option CacheEntry :=
  c.entries.lookup key

/-- `HashMap::insert` (upsert: the new binding shadows any previous one). -/
def Cache.insert (c : Cache) (key : String) (v : CacheEntry) : Cache :=
  ⟨(key, v) :: c.entries⟩

/-- The empty cache (`Cache { entries: HashMap::new() }`). -/
def emptyCache : Cache := ⟨[]⟩

/-! ### Identity & signature, cache load/store — src/main.rs lines 89–202 -/

/-- `get_file_signature` (lines 89–97): `format!("{}-{}", size, modified)`
where `size` and `modified` are the file's byte size and mtime in Unix
seconds, supplied here as the outcome of the `fs::metadata` call. -/
def get_file_signature (size modified : ℕ) : String :=
  natRepr size ++ "-" ++ natRepr modified

/-- `load_cache` (lines 112–130).  `disk` is the content of the persisted
cache file if it exists (`none` models a missing file); `deser` models
`serde_json::from_str` (`none` = deserialization error).  Any parse failure
falls back to the empty cache (`unwrap_or_else`). -/
def load_cache (deser : String → Option Cache) (disk : Option String) : Cache :=
  match disk with
  | some content => (deser content).getD emptyCache
  | none => emptyCache

/-- The lazy-initialisation step shared by `get_cached_probe` (lines
151–165), `save_to_cache` and `get_cached_files`: if the process-wide cache
has not been loaded yet (`mem = none`), load it from disk with the same
corrupt-file fallback as `load_cache`; otherwise reuse it. -/
def loadedCacheState (mem : Option Cache) (deser : String → Option Cache)
    (disk : Option String) : Cache :=
  match mem with
  | some c => c
  | none => load_cache deser disk

/-- `get_cached_probe` (lines 144–177).  `pathStr` is the canonicalized
path string; `size`/`modified` are the file's current metadata (the
signature is computed only when an entry exists, exactly as in the source).
Returns the cached probe only when an entry for `pathStr` exists and its
stored signature equals the current one. -/
def get_cached_probe (mem : Option Cache) (deser : String → Option Cache)
    (disk : Option String) (pathStr : String) (size modified : ℕ) :
    Option FFProbeOutput :=
  match (loadedCacheState mem deser disk).find? pathStr with
  | some entry =>
    if get_file_signature size modified = entry.signature then
      some entry.probe_data
    else
      none
  | none => none

/-- `save_to_cache` (lines 179–202): insert the freshly probed record into
the (already loaded) in-memory cache, then persist the whole cache.
`persist` is the outcome of `save_cache` (serialization + `fs::write`).
The in-memory insertion happens before the write, so it survives a write
failure; the function's `Except` result carries the write outcome. -/
def save_to_cache (cache : Cache) (pathStr : String) (size modified : ℕ)
    (probe : FFProbeOutput) (persist : Except String Unit) :
    Cache × Except String Unit :=
  let cache' := cache.insert pathStr ⟨get_file_signature size modified, probe⟩
  (cache', match persist with
           | .error e => .error e
           | .ok _ => .ok ())

/-- `process_file` (lines 434–466): consult the cache; on a miss run
ffprobe (its exit status and parsed JSON are collapsed into `prober`),
then `save_to_cache(file, &probe)?` — note the `?`: a failing cache write
is propagated as this file's error.  Returns the final in-memory cache
together with the per-file result. -/
def process_file (mem : Option Cache) (deser : String → Option Cache)
    (disk : Option String) (pathStr : String) (size modified : ℕ)
    (prober : Except String FFProbeOutput) (persist : Except String Unit) :
    Cache × Except String FFProbeOutput :=
  match get_cached_probe mem deser disk pathStr size modified with
  | some probe => (loadedCacheState mem deser disk, .ok probe)
  | none =>
    match prober with
    | .error e => (loadedCacheState mem deser disk, .error e)
    | .ok probe =>
      match save_to_cache (loadedCacheState mem deser disk) pathStr size modified
          probe persist with
      | (cache', .error e) => (cache', .error e)
      | (cache', .ok _) => (cache', .ok probe)

/-! ### Display formatting — src/main.rs lines 204–260 -/

/-- `format_duration` (lines 204–221): parse the ffprobe duration string as
a float; print `HH:MM:SS` when at least one hour, else `MM:SS`; an
unparseable string yields `""`.  The `as u32` casts saturate. -/
def format_duration (duration : String) : String :=
  match parseF64? duration with
  | some secs =>
    if 0 < ((⌊secs / 3600⌋ : ℤ) : ℚ) then
      pad2 (f64ToU32 ((⌊secs / 3600⌋ : ℤ) : ℚ)) ++ ":"
        ++ pad2 (f64ToU32 ((⌊qmod secs 3600 / 60⌋ : ℤ) : ℚ)) ++ ":"
        ++ pad2 (f64ToU32 (qmod secs 60))
    else
      pad2 (f64ToU32 ((⌊qmod secs 3600 / 60⌋ : ℤ) : ℚ)) ++ ":"
        ++ pad2 (f64ToU32 (qmod secs 60))
  | none => ""

/-- 1024-based units (lines 225–227). -/
def KB : ℕ := 1024
/-- `MB = KB * 1024`. -/
def MB : ℕ := KB * 1024
/-- `GB = MB * 1024`. -/
def GB : ℕ := MB * 1024

/-- `format_size` (lines 223–241): parse the byte-count string as `u64`,
then format with two decimals in the largest 1024-based unit that fits
(plain bytes below 1 KB); an unparseable string yields `""`. -/
def format_size (size : String) : String :=
  match parseNat? size with
  | some bytes =>
    if GB ≤ bytes then fmt2 ((bytes : ℚ) / (GB : ℚ)) ++ " GB"
    else if MB ≤ bytes then fmt2 ((bytes : ℚ) / (MB : ℚ)) ++ " MB"
    else if KB ≤ bytes then fmt2 ((bytes : ℚ) / (KB : ℚ)) ++ " KB"
    else natRepr bytes ++ " B"
  | none => ""

/-- `get_bit_depth` (lines 243–250). -/
def get_bit_depth (pix_fmt : Option String) : String :=
  match pix_fmt with
  | some fmt =>
    if strContains fmt "p10" then "10bit"
    else if strContains fmt "p12" then "12bit"
    else "8bit"
  | none => "8bit"

/-! ### Reverse parsers for the query engine — src/main.rs lines 313–370,
580–614 -/

/-- `parse_duration_to_secs` (lines 313–329): split the display string on
`':'`; two pieces are `MM:SS`, three are `HH:MM:SS`; each piece is parsed
as a float with fallback 0; any other shape yields 0. -/
def parse_duration_to_secs (s : String) : ℚ :=
  match splitOnChar ':' s with
  | [m, sec] => (parseF64? m).getD 0 * 60 + (parseF64? sec).getD 0
  | [h, m, sec] =>
    (parseF64? h).getD 0 * 3600 + (parseF64? m).getD 0 * 60 + (parseF64? sec).getD 0
  | _ => 0

/-- Character-level loop of `parse_human_duration` (lines 331–369),
faithful to the peeking iterator: digits accumulate (`num` holds them in
reverse), a unit letter flushes the accumulated number (`h`→hours,
`m`/`min`→minutes, `s`→seconds), any other letter aborts with `none`;
a trailing number without a unit counts as seconds. -/
def phdAux : List Char → List Char → ℚ → Option ℚ
  | [], num, acc =>
    if num.isEmpty then some acc
    else
      match parseF64? ⟨num.reverse⟩ with
      | some n => some (acc + n)
      | none => some acc
  | c :: rest, num, acc =>
    if c.isDigit then phdAux rest (c :: num) acc
    else
      match parseF64? ⟨num.reverse⟩ with
      | none => none
      | some n =>
        match c with
        | 'h' => phdAux rest [] (acc + n * 3600)
        | 'm' =>
          match rest with
          | 'i' :: 'n' :: rest2 => phdAux rest2 [] (acc + n * 60)
          | 'i' :: rest2 => phdAux rest2 [] acc
          | [] => phdAux [] [] (acc + n * 60)
          | c2 :: rest2 => phdAux (c2 :: rest2) [] (acc + n * 60)
        | 's' => phdAux rest [] (acc + n)
        | _ => none
termination_by l _ _ => l.length
decreasing_by all_goals simp_arith [List.length]

/-- `parse_human_duration` (lines 331–369): shorthand such as `1h30m`. -/
def parse_human_duration (s : String) : Option ℚ :=
  phdAux s.data [] 0

/-- `parse_bitrate` (lines 580–585): first whitespace token parsed as a
float. -/
def parse_bitrate (s : String) : Option ℚ :=
  (splitWs s).head?.bind parseF64?

/-- `parse_size` (lines 600–614): expect `value unit`; reverse the binary
prefix; the `as u64` cast truncates and saturates. -/
def parse_size (s : String) : ℕ :=
  if (splitWs s).length ≠ 2 then 0
  else
    match (splitWs s).getD 1 "" with
    | "GB" => f64ToU64 ((parseF64? ((splitWs s).getD 0 "")).getD 0 * (1024 * 1024 * 1024 : ℚ))
    | "MB" => f64ToU64 ((parseF64? ((splitWs s).getD 0 "")).getD 0 * (1024 * 1024 : ℚ))
    | "KB" => f64ToU64 ((parseF64? ((splitWs s).getD 0 "")).getD 0 * 1024)
    | "B" => f64ToU64 ((parseF64? ((splitWs s).getD 0 "")).getD 0)
    | _ => 0

/-! ### Filtering — src/main.rs lines 372–432 -/

/-- The body of the closure inside `should_include_row` (lines 379–431),
evaluated for a single filter string against one row.  Note the control
flow of the source: the first guard `if parts.len() != 2 { return true }`
returns `true` for every filter that does not split into exactly two
pieces — in particular for every three-piece `column:op:value` filter —
and in the remaining two-piece case the later guard
`if parts.len() != 3 { return true }` always fires for non-`filename`
columns, so the operator branch below it is unreachable (it is embedded
anyway, faithful to the source). -/
def filterMatches (fields : List String) (filter : String) : Bool :=
  let parts := splitOnChar ':' filter
  if parts.length ≠ 2 then true
  else
    let column := parts.getD 0 ""
    let value := parts.getD 1 ""
    if column = "filename" then
      strContains (strToLower (fields.getD 0 "")) (strToLower value)
    else if parts.length ≠ 3 then true
    else
      let column := parts.getD 0 ""
      let op := parts.getD 1 ""
      let value := parts.getD 2 ""
      let idx? : Option ℕ :=
        match column with
        | "size" => some 1
        | "duration" => some 2
        | "fps" => some 3
        | "bitrate" => some 4
        | _ => none
      match idx? with
      | some idx =>
        let fieldValue? : Option ℚ :=
          match column with
          | "size" => some ((parse_size (fields.getD idx "") : ℚ))
          | "duration" => some (parse_duration_to_secs (fields.getD idx ""))
          | "fps" => some ((parseF64? (fields.getD idx "")).getD 0)
          | "bitrate" => some ((parse_bitrate (fields.getD idx "")).getD 0)
          | _ => none
        match fieldValue? with
        | none => true
        | some fieldValue =>
          let threshold : ℚ :=
            if column = "duration" then
              (parse_human_duration value).getD ((parseF64? value).getD 0)
            else
              (parseF64? value).getD 0
          match op with
          | ">" => decide (threshold < fieldValue)
          | "<" => decide (fieldValue < threshold)
          | _ => true
      | none => true

/-- `should_include_row` (lines 372–432): a row is kept iff every filter
matches (no filters keeps everything). -/
def should_include_row (fields : List String) (filters : List String) : Bool :=
  filters.all (filterMatches fields)

/-! ### Filename truncation — src/main.rs lines 468–487 -/

/-- `truncate_middle` (lines 468–487).  When the string is longer than
`max_len` the source computes `side_len = (max_len - 3) / 2` with `usize`
subtraction: for `max_len < 3` that subtraction underflows, a panic under
checked arithmetic, modelled here as `none`. -/
def truncate_middle (s : String) (max_len : ℕ) : Option String :=
  if s.data.length ≤ max_len then some s
  else if max_len < 3 then none
  else
    let side_len := (max_len - 3) / 2
    some (⟨s.data.take side_len⟩ ++ "..." ++ ⟨(s.data.reverse.take side_len).reverse⟩)

/-! ### Field extraction — src/main.rs lines 489–578 -/

/-- `format_probe_output` (lines 489–578), with the path already reduced to
its base name `name`.  Produces the ten display fields; `none` models the
`truncate_middle` panic (the only way the Rust function can fail).  The
first stream of `codec_type == "video"` supplies the six video-derived
fields (empty strings when absent); the first audio stream supplies the
audio summary. -/
def format_probe_output (name : String) (probe : FFProbeOutput)
    (filename_length : ℕ) : Option (List String) :=
  match truncate_middle name filename_length with
  | none => none
  | some tname =>
    let f1 := format_size probe.format.size
    let f2 := format_duration probe.format.duration
    let videoFields :=
      match probe.streams.find? (fun s => s.codec_type == "video") with
      | some video =>
        let fps :=
          match video.r_frame_rate with
          | some r =>
            (match splitOnChar '/' r with
             | [nS, dS] =>
               match parseF64? nS, parseF64? dS with
               | some num, some den => if den ≠ 0 then fmt2 (num / den) else ""
               | _, _ => ""
             | _ => "")
          | none => ""
        let bitrate :=
          match probe.format.bit_rate with
          | some b =>
            (match parseF64? b with
             | some q => fmt2 (q / 1000000) ++ " Mbps"
             | none => "")
          | none => ""
        let resolution := intRepr (video.width.getD 0) ++ "x" ++ intRepr (video.height.getD 0)
        let codec := video.codec_name.getD ""
        let profile := video.profile.getD ""
        let depth := get_bit_depth video.pix_fmt
        [fps, bitrate, resolution, codec, profile, depth]
      | none => ["", "", "", "", "", ""]
    let audioField :=
      match probe.streams.find? (fun s => s.codec_type == "audio") with
      | some audio =>
        let channels := intRepr (audio.channels.getD 0) ++ "CH"
        let abitrate :=
          match audio.bit_rate with
          | some b =>
            (match parseF64? b with
             | some q => " " ++ fmt0 (q / 1000) ++ "k"
             | none => "")
          | none => ""
        channels ++ abitrate
      | none => ""
    some ([tname, f1, f2] ++ videoFields ++ [audioField])

/-! ### Sorting — src/main.rs lines 726–780 -/

/-- A display row: the ten-element `Vec<String>` of `format_probe_output`
(the `prettytable::Row` paired with it in `main` carries no information
used by the sort and is omitted). -/
def Fields := List String
deriving DecidableEq

/-- Comparison through a sort key, as `Ord::cmp` / `PartialOrd::partial_cmp`
produce it for the key values (for the `f64` keys of this program the
values come from successful parses or are the fallback `0.0`, never `NaN`,
so `partial_cmp(..).unwrap_or(Equal)` is the total comparison). -/
def keyCmp {K : Type} [LinearOrder K] (key : Fields → K) (a b : Fields) : Ordering :=
  if key a < key b then .lt else if key b < key a then .gt else .eq

/-- The size key: `parse_size(&row[1])` (lines 743–748). -/
def sizeKey (a : Fields) : ℕ := parse_size (a.getD 1 "")

/-- The duration key: `row[2].parse::<f64>().unwrap_or(0.0)` (lines
749–756) — note: a **direct** float parse of the display string, not
`parse_duration_to_secs`. -/
def durationKey (a : Fields) : ℚ := (parseF64? (a.getD 2 "")).getD 0

/-- The fps key (lines 757–764). -/
def fpsKey (a : Fields) : ℚ := (parseF64? (a.getD 3 "")).getD 0

/-- The bitrate key (lines 765–772). -/
def bitrateKey (a : Fields) : ℚ := (parse_bitrate (a.getD 4 "")).getD 0

/-- The lexical key for all other columns (line 773): plain string
comparison of the displayed field. -/
def strKey (i : ℕ) (a : Fields) : String := a.getD i ""

/-- The comparator of `rows.sort_by` (lines 741–774): column-typed for
size/duration/fps/bitrate, lexical otherwise. -/
def rowCmp (i : ℕ) : Fields → Fields → Ordering :=
  match i with
  | 1 => keyCmp sizeKey
  | 2 => keyCmp durationKey
  | 3 => keyCmp fpsKey
  | 4 => keyCmp bitrateKey
  | i => keyCmp (strKey i)

/-- `rows.sort_by(...)` (lines 740–780): a stable sort by the column
comparator, reversed when `direction` is `desc` (`cmp.reverse()`).
Rust's `sort_by` is a stable sort; with the lawful (key-based, total,
transitive) comparators above, the output of a stable sort is the unique
sorted permutation that keeps tied elements in their input order, so the
stable `List.insertionSort` computes exactly `sort_by`'s result. -/
def sortRows (i : ℕ) (ascending : Bool) (rows : List Fields) : List Fields :=
  List.insertionSort
    (fun a b => (if ascending then rowCmp i a b else (rowCmp i a b).swap) ≠ Ordering.gt)
    rows

/-! ## Claims

Each claim of the specification is settled by one theorem below (with a
closed witness instance whenever the theorem carries hypotheses). -/

/-- A small concrete probe record used by witness instances. -/
def sampleProbe : FFProbeOutput :=
  ⟨[⟨"audio", none, none, none, none, none, some "128000", none, some 2⟩],
   ⟨"/a.mp3", "2048", "61.5", none⟩⟩

/-- C1.  Cache lookup respects the signature: `get_cached_probe` returns
`some r` iff the (lazily loaded) in-memory cache holds an entry keyed by
the canonical path whose stored signature equals the current signature
`"<size>-<modified>"`, and `r` is that entry's probe; when the entry is
absent or every stored signature differs, it returns `none`, forcing a
fresh probe. -/
theorem get_cached_probe_of_find_none (mem : Option Cache)
    (deser : String → Option Cache) (disk : Option String)
    (p : String) (sz md : ℕ)
    (h : (loadedCacheState mem deser disk).find? p = none) :
    get_cached_probe mem deser disk p sz md = none := by
  unfold get_cached_probe
  rw [h]

theorem get_cached_probe_of_find_some (mem : Option Cache)
    (deser : String → Option Cache) (disk : Option String)
    (p : String) (sz md : ℕ) (e : CacheEntry)
    (h : (loadedCacheState mem deser disk).find? p = some e) :
    get_cached_probe mem deser disk p sz md =
      if get_file_signature sz md = e.signature then some e.probe_data
      else none := by
  unfold get_cached_probe
  rw [h]

/-- C1.  Cache lookup respects the signature: `get_cached_probe` returns
`some r` iff the (lazily loaded) in-memory cache holds an entry keyed by
the canonical path whose stored signature equals the current signature
`"<size>-<modified>"`, and `r` is that entry's probe; when the entry is
absent or the stored signature differs, it returns `none`, forcing a
fresh probe. -/
theorem get_cached_probe_signature_spec (mem : Option Cache)
    (deser : String → Option Cache) (disk : Option String)
    (p : String) (sz md : ℕ) :
    (∀ r, get_cached_probe mem deser disk p sz md = some r ↔
      ∃ e, (loadedCacheState mem deser disk).find? p = some e ∧
        e.signature = get_file_signature sz md ∧ e.probe_data = r)
    ∧ ((∀ e, (loadedCacheState mem deser disk).find? p = some e →
          e.signature ≠ get_file_signature sz md) →
        get_cached_probe mem deser disk p sz md = none) := by
  rcases Option.eq_none_or_eq_some ((loadedCacheState mem deser disk).find? p)
    with h | ⟨e, h⟩
  · constructor
    · intro r
      rw [get_cached_probe_of_find_none mem deser disk p sz md h, h]
      simp
    · intro _
      exact get_cached_probe_of_find_none mem deser disk p sz md h
  · constructor
    · intro r
      rw [get_cached_probe_of_find_some mem deser disk p sz md e h, h]
      by_cases hsig : get_file_signature sz md = e.signature
      · rw [if_pos hsig]
        constructor
        · intro hr
          exact ⟨e, rfl, hsig.symm, Option.some.inj hr⟩
        · rintro ⟨e', he', hs, hpd⟩
          cases Option.some.inj he'
          rw [hpd]
      · rw [if_neg hsig]
        constructor
        · intro hr
          cases hr
        · rintro ⟨e', he', hs, hpd⟩
          cases Option.some.inj he'
          exact absurd hs.symm hsig
    · intro hall
      rw [get_cached_probe_of_find_some mem deser disk p sz md e h]
      exact if_neg fun h' => hall e h h'.symm

/-- C1 witness: a cache whose only entry for the path stores signature
`"10-20"` while the file's current signature is `"11-20"` yields `none`;
with the matching metadata it yields the cached probe. -/
theorem get_cached_probe_signature_spec_witness :
    get_cached_probe
      (some ⟨[("/a.mp3", ⟨"10-20", sampleProbe⟩)]⟩) (fun _ => none) none
      "/a.mp3" 11 20 = none := by
  exact (get_cached_probe_signature_spec
      (some ⟨[("/a.mp3", ⟨"10-20", sampleProbe⟩)]⟩) (fun _ => none) none
      "/a.mp3" 11 20).2 (by decide)

/-- C5.  Corrupt cache is a cold cache: if the persisted cache file exists
but its content fails to deserialize, `load_cache` succeeds with the empty
cache; a missing cache file also yields the empty cache. -/
theorem load_cache_corrupt_is_empty (deser : String → Option Cache)
    (content : String) (hbad : deser content = none) :
    load_cache deser (some content) = emptyCache
    ∧ load_cache deser none = emptyCache := by
  constructor
  · show (deser content).getD emptyCache = emptyCache
    rw [hbad]
    rfl
  · rfl

/-- C5 witness: a deserializer that rejects the concrete corrupt content
`"corrupt not-json content"` produces the empty cache on load. -/
theorem load_cache_corrupt_is_empty_witness :
    load_cache (fun _ => none) (some "corrupt not-json content") = emptyCache
    ∧ load_cache (fun _ => none) none = emptyCache :=
  load_cache_corrupt_is_empty (fun _ => none) "corrupt not-json content" rfl

/-- C2 counterexample.  The claim says a cache-persistence failure still
lets `process_file` return `Ok` with the freshly probed record.  It does
not: `save_to_cache(file, &probe)?` propagates the write error, so on a
cache miss with a successful probe (`.ok sampleProbe`) and a failing
persist (`.error "disk full"`), `process_file` returns the error, not
`Ok`. -/
theorem process_file_persist_failure_cex :
    (process_file (some emptyCache) (fun _ => none) none "/a.mp3" 1 2
        (.ok sampleProbe) (.error "disk full")).2
      = Except.error "disk full" := rfl

/-- C2 amended.  On a cache miss with a successful probe, a persistence
failure is propagated: `process_file` returns `Err` for that file (the
caller reports it per-file), even though the freshly probed record was
inserted into the in-memory cache before the failing write. -/
theorem process_file_persist_error_propagates (mem : Option Cache)
    (deser : String → Option Cache) (disk : Option String)
    (p : String) (sz md : ℕ) (probe : FFProbeOutput) (err : String)
    (hmiss : get_cached_probe mem deser disk p sz md = none) :
    process_file mem deser disk p sz md (.ok probe) (.error err)
      = ((loadedCacheState mem deser disk).insert p
          ⟨get_file_signature sz md, probe⟩, .error err)
    ∧ ((loadedCacheState mem deser disk).insert p
          ⟨get_file_signature sz md, probe⟩).find? p
        = some ⟨get_file_signature sz md, probe⟩ := by
  constructor
  · unfold process_file
    rw [hmiss]
    rfl
  · simp [Cache.find?, Cache.insert, List.lookup]

/-- C2 amended witness: the concrete miss-then-fail run. -/
theorem process_file_persist_error_propagates_witness :
    process_file (some emptyCache) (fun _ => none) none "/a.mp3" 1 2
        (.ok sampleProbe) (.error "disk full")
      = (emptyCache.insert "/a.mp3" ⟨get_file_signature 1 2, sampleProbe⟩,
         .error "disk full")
    ∧ (emptyCache.insert "/a.mp3" ⟨get_file_signature 1 2, sampleProbe⟩).find? "/a.mp3"
        = some ⟨get_file_signature 1 2, sampleProbe⟩ :=
  process_file_persist_error_propagates (some emptyCache) (fun _ => none) none
    "/a.mp3" 1 2 sampleProbe "disk full" (by decide)

/-- C3 (code bug).  The filter `"bitrate:>:5"` splits into three
`':'`-pieces, so the guard `if parts.len() != 2 { return true }` at the top
of `should_include_row`'s closure fires and the row is retained no matter
what: the operator-filter machinery below that guard is dead code.  Both
the 3.50 Mbps row (which the claim and the CLI's own `--filter` help text
say must be excluded) and the 7.20 Mbps row are kept. -/
theorem bitrate_filter_dead_code :
    should_include_row ["a.mp4", "1.00 GB", "10:00", "23.98", "3.50 Mbps",
        "1920x1080", "h264", "High", "8bit", "2CH 128k"] ["bitrate:>:5"] = true
    ∧ should_include_row ["b.mp4", "1.00 GB", "10:00", "23.98", "7.20 Mbps",
        "1920x1080", "h264", "High", "8bit", "2CH 128k"] ["bitrate:>:5"] = true
    ∧ splitOnChar ':' "bitrate:>:5" = ["bitrate", ">", "5"] := by
  decide

unseal Rat.add Rat.mul Rat.inv Rat.sub in
/-- C4 (code bug).  The duration sort comparator applies
`row[2].parse::<f64>()` directly to the displayed `"MM:SS"`/`"HH:MM:SS"`
string instead of `parse_duration_to_secs`; the parse always fails on the
`':'`, so every duration key is the fallback `0.0` and the stable sort
leaves the rows in discovery order: `"1:00:00"` (3600 s) stays before
`"09:59"` (599 s) under ascending sort. -/
theorem duration_sort_ignores_display :
    sortRows 2 true
        [["b.mp4", "", "1:00:00", "", "", "", "", "", "", ""],
         ["a.mp4", "", "09:59", "", "", "", "", "", "", ""]]
      = [["b.mp4", "", "1:00:00", "", "", "", "", "", "", ""],
         ["a.mp4", "", "09:59", "", "", "", "", "", "", ""]]
    ∧ parse_duration_to_secs "1:00:00" = 3600
    ∧ parse_duration_to_secs "09:59" = 599
    ∧ durationKey ["b.mp4", "", "1:00:00", "", "", "", "", "", "", ""] = 0
    ∧ durationKey ["a.mp4", "", "09:59", "", "", "", "", "", "", ""] = 0 := by
  decide

/-- The claim's notion of a malformed filter token: wrong number of
`':'`-separated pieces, unrecognized column name (for the two-piece form
only `filename` is recognized; for the three-piece form only the four
numeric columns), or unrecognized operator. -/
def MalformedFilter (f : String) : Prop :=
  ((splitOnChar ':' f).length ≠ 2 ∧ (splitOnChar ':' f).length ≠ 3)
  ∨ ((splitOnChar ':' f).length = 2 ∧ (splitOnChar ':' f).getD 0 "" ≠ "filename")
  ∨ ((splitOnChar ':' f).length = 3 ∧
      ((splitOnChar ':' f).getD 0 "" ∉ (["size", "duration", "fps", "bitrate"] : List String)
        ∨ (splitOnChar ':' f).getD 1 "" ∉ ([">", "<"] : List String)))

instance (f : String) : Decidable (MalformedFilter f) := by
  unfold MalformedFilter
  infer_instance

/-- Every malformed filter matches every row (it hits one of the two
`return true` guards of the closure). -/
theorem filterMatches_of_malformed (fields : List String) (f : String)
    (hf : MalformedFilter f) : filterMatches fields f = true := by
  unfold MalformedFilter at hf
  unfold filterMatches
  by_cases h2 : (splitOnChar ':' f).length = 2
  · have hcol : (splitOnChar ':' f).getD 0 "" ≠ "filename" := by
      rcases hf with ⟨ha, _⟩ | ⟨_, hb⟩ | ⟨h3, _⟩
      · exact absurd h2 ha
      · exact hb
      · rw [h2] at h3
        cases h3
    rw [List.getD_eq_getElem?_getD, List.getElem?_eq_getElem (by omega)] at hcol
    simp [h2]
    left
    simpa using hcol
  · simp [h2]

/-- C6.  Filters fail open: inserting a malformed filter token anywhere in
the filter list leaves `should_include_row`'s verdict unchanged on every
row, so a malformed token can never exclude a row that would otherwise be
included (and the evaluation is total — no abort). -/
theorem malformed_filter_fail_open (fields : List String)
    (fs₁ fs₂ : List String) (f : String) (hf : MalformedFilter f) :
    should_include_row fields (fs₁ ++ f :: fs₂)
      = should_include_row fields (fs₁ ++ fs₂) := by
  unfold should_include_row
  simp [List.all_append, List.all_cons, filterMatches_of_malformed fields f hf]

/-- C6 witness: the one-piece token `"bogus"`, the unknown two-piece column
`"codec:h264"`, and the unknown operator `"bitrate:=:5"` are all malformed
and leave a concrete row's inclusion unchanged. -/
theorem malformed_filter_fail_open_witness :
    should_include_row ["a.mp4", "1.00 GB", "10:00", "23.98", "3.50 Mbps",
        "1920x1080", "h264", "High", "8bit", "2CH 128k"]
      (["filename:a"] ++ "bogus" :: ["codec:h264", "bitrate:=:5"])
    = should_include_row ["a.mp4", "1.00 GB", "10:00", "23.98", "3.50 Mbps",
        "1920x1080", "h264", "High", "8bit", "2CH 128k"]
      (["filename:a"] ++ ["codec:h264", "bitrate:=:5"]) :=
  malformed_filter_fail_open
    ["a.mp4", "1.00 GB", "10:00", "23.98", "3.50 Mbps",
     "1920x1080", "h264", "High", "8bit", "2CH 128k"]
    ["filename:a"] ["codec:h264", "bitrate:=:5"] "bogus" (by decide)

/-- C10.  `truncate_middle` is total exactly for `max_len ≥ 3`: it returns
the string unchanged when it has at most `max_len` characters and otherwise
a string of at most `max_len` characters of the shape
`prefix ++ "..." ++ suffix` with equal-length prefix and suffix of the
input, the halves being `(max_len - 3) / 2` characters each (so the
subtraction never underflows); for `max_len < 3` and a longer string the
`usize` subtraction `max_len - 3` underflows — a panic under checked
arithmetic, modelled as `none`. -/
theorem truncate_middle_spec (s : String) (m : ℕ) :
    (3 ≤ m →
      (s.data.length ≤ m → truncate_middle s m = some s)
      ∧ (m < s.data.length → ∃ t, truncate_middle s m = some t
          ∧ t.data.length ≤ m
          ∧ ∃ p q : List Char, t.data = p ++ ('.' :: '.' :: '.' :: []) ++ q
              ∧ p.length = q.length ∧ p.length = (m - 3) / 2
              ∧ p <+: s.data ∧ q <:+ s.data))
    ∧ (m < 3 → m < s.data.length → truncate_middle s m = none) := by
  constructor
  · intro h3
    constructor
    · intro hle
      unfold truncate_middle
      rw [if_pos hle]
    · intro hgt
      have hnle : ¬ s.data.length ≤ m := by omega
      have hm3 : ¬ m < 3 := by omega
      have hklen : (m - 3) / 2 ≤ s.data.length := by omega
      unfold truncate_middle
      rw [if_neg hnle, if_neg hm3]
      refine ⟨_, rfl, ?_, s.data.take ((m - 3) / 2),
        (s.data.reverse.take ((m - 3) / 2)).reverse, ?_, ?_, ?_, ?_, ?_⟩
      · show (⟨s.data.take ((m - 3) / 2)⟩ ++ "..."
            ++ ⟨(s.data.reverse.take ((m - 3) / 2)).reverse⟩ : String).data.length ≤ m
        have : (⟨s.data.take ((m - 3) / 2)⟩ ++ "..."
            ++ ⟨(s.data.reverse.take ((m - 3) / 2)).reverse⟩ : String).data
            = s.data.take ((m - 3) / 2) ++ ('.' :: '.' :: '.' :: [])
              ++ (s.data.reverse.take ((m - 3) / 2)).reverse := rfl
        rw [this]
        simp only [List.length_append, List.length_take, List.length_reverse,
          List.length_cons, List.length_nil]
        rw [min_eq_left hklen]
        omega
      · rfl
      · simp only [List.length_take, List.length_reverse]
      · simp only [List.length_take]
        exact min_eq_left hklen
      · exact ⟨s.data.drop ((m - 3) / 2), List.take_append_drop _ _⟩
      · rw [List.take_reverse, List.reverse_reverse]
        exact ⟨s.data.take (s.data.length - (m - 3) / 2), List.take_append_drop _ _⟩
  · intro hm3 hgt
    have hnle : ¬ s.data.length ≤ m := by omega
    unfold truncate_middle
    rw [if_neg hnle, if_pos hm3]

/-- C10 witness: `truncate_middle "abcdefghij" 7 = some "ab...ij"` (well
formed, both halves of length 2) and `truncate_middle "abcdefghij" 2`
underflows. -/
theorem truncate_middle_spec_witness :
    (∃ t, truncate_middle "abcdefghij" 7 = some t
      ∧ t.data.length ≤ 7
      ∧ ∃ p q : List Char, t.data = p ++ ('.' :: '.' :: '.' :: []) ++ q
          ∧ p.length = q.length ∧ p.length = (7 - 3) / 2
          ∧ p <+: ("abcdefghij" : String).data
          ∧ q <:+ ("abcdefghij" : String).data)
    ∧ truncate_middle "abcdefghij" 2 = none :=
  ⟨((truncate_middle_spec "abcdefghij" 7).1 (by decide)).2 (by decide),
   (truncate_middle_spec "abcdefghij" 2).2 (by decide) (by decide)⟩

/-! ### Comparator lemmas for the sort (claim C7) -/

theorem keyCmp_swap {K : Type} [LinearOrder K] (key : Fields → K) (a b : Fields) :
    keyCmp key b a = (keyCmp key a b).swap := by
  rcases lt_trichotomy (key a) (key b) with h | h | h
  · simp [keyCmp, lt_asymm h, h, Ordering.swap]
  · simp [keyCmp, h, lt_irrefl, Ordering.swap]
  · simp [keyCmp, lt_asymm h, h, Ordering.swap]

theorem keyCmp_not_gt_iff {K : Type} [LinearOrder K] (key : Fields → K)
    (a b : Fields) : keyCmp key a b ≠ .gt ↔ key a ≤ key b := by
  rcases lt_trichotomy (key a) (key b) with h | h | h
  · simp [keyCmp, h, h.le]
  · simp [keyCmp, h, lt_irrefl, le_refl]
  · simp [keyCmp, lt_asymm h, h, not_le.2 h]

theorem rowCmp_swap (i : ℕ) (a b : Fields) : rowCmp i b a = (rowCmp i a b).swap := by
  rcases i with _ | _ | _ | _ | _ | n
  · exact keyCmp_swap (strKey 0) a b
  · exact keyCmp_swap sizeKey a b
  · exact keyCmp_swap durationKey a b
  · exact keyCmp_swap fpsKey a b
  · exact keyCmp_swap bitrateKey a b
  · exact keyCmp_swap (strKey (n + 5)) a b

theorem rowCmp_trans (i : ℕ) (a b c : Fields) (h1 : rowCmp i a b ≠ .gt)
    (h2 : rowCmp i b c ≠ .gt) : rowCmp i a c ≠ .gt := by
  rcases i with _ | _ | _ | _ | _ | n
  · exact (keyCmp_not_gt_iff (strKey 0) a c).2
      (le_trans ((keyCmp_not_gt_iff _ a b).1 h1) ((keyCmp_not_gt_iff _ b c).1 h2))
  · exact (keyCmp_not_gt_iff sizeKey a c).2
      (le_trans ((keyCmp_not_gt_iff _ a b).1 h1) ((keyCmp_not_gt_iff _ b c).1 h2))
  · exact (keyCmp_not_gt_iff durationKey a c).2
      (le_trans ((keyCmp_not_gt_iff _ a b).1 h1) ((keyCmp_not_gt_iff _ b c).1 h2))
  · exact (keyCmp_not_gt_iff fpsKey a c).2
      (le_trans ((keyCmp_not_gt_iff _ a b).1 h1) ((keyCmp_not_gt_iff _ b c).1 h2))
  · exact (keyCmp_not_gt_iff bitrateKey a c).2
      (le_trans ((keyCmp_not_gt_iff _ a b).1 h1) ((keyCmp_not_gt_iff _ b c).1 h2))
  · exact (keyCmp_not_gt_iff (strKey (n + 5)) a c).2
      (le_trans ((keyCmp_not_gt_iff _ a b).1 h1) ((keyCmp_not_gt_iff _ b c).1 h2))

theorem ordering_swap_ne_gt_iff (x : Ordering) : x.swap ≠ .gt ↔ x ≠ .lt := by
  cases x <;> simp [Ordering.swap]

/-- Two sorted lists that are permutations of each other and whose relation
is antisymmetric on their members are equal. -/
theorem eq_of_perm_of_pairwise_of_antisymm {α : Type} {r : α → α → Prop} :
    ∀ (l₁ l₂ : List α), l₁.Perm l₂ → l₁.Pairwise r → l₂.Pairwise r →
      (∀ a ∈ l₁, ∀ b ∈ l₁, r a b → r b a → a = b) → l₁ = l₂ := by
  intro l₁
  induction l₁ with
  | nil =>
    intro l₂ hp _ _ _
    exact (hp.symm.eq_nil).symm
  | cons a t₁ ih =>
    intro l₂ hp hs₁ hs₂ hanti
    cases l₂ with
    | nil => exact (List.cons_ne_nil a t₁ hp.eq_nil).elim
    | cons b t₂ =>
      have hab : a = b := by
        have hbmem : b ∈ a :: t₁ := hp.symm.subset (List.mem_cons_self b t₂)
        have hamem : a ∈ b :: t₂ := hp.subset (List.mem_cons_self a t₁)
        rcases List.mem_cons.1 hamem with h | hat₂
        · exact h
        rcases List.mem_cons.1 hbmem with h | hbt₁
        · exact h.symm
        have hrab : r a b := (List.pairwise_cons.1 hs₁).1 b hbt₁
        have hrba : r b a := (List.pairwise_cons.1 hs₂).1 a hat₂
        exact hanti a (List.mem_cons_self a t₁) b (List.mem_cons_of_mem a hbt₁)
          hrab hrba
      subst hab
      have ht : t₁.Perm t₂ := hp.cons_inv
      have := ih t₂ ht (List.pairwise_cons.1 hs₁).2 (List.pairwise_cons.1 hs₂).2
        (fun x hx y hy => hanti x (List.mem_cons_of_mem a hx) y
          (List.mem_cons_of_mem a hy))
      rw [this]

theorem sortRows_true_eq (i : ℕ) (rows : List Fields) :
    sortRows i true rows
      = List.insertionSort (fun a b => rowCmp i a b ≠ Ordering.gt) rows := rfl

theorem sortRows_false_eq (i : ℕ) (rows : List Fields) :
    sortRows i false rows
      = List.insertionSort (fun a b => (rowCmp i a b).swap ≠ Ordering.gt) rows := rfl

/-- The descending stable sort equals the reversed ascending stable sort
whenever the comparator has no ties between distinct elements of the
list. -/
theorem insertionSort_swap_reverse {α : Type} (cmp : α → α → Ordering)
    (hswap : ∀ a b, cmp b a = (cmp a b).swap)
    (htrans : ∀ a b c, cmp a b ≠ .gt → cmp b c ≠ .gt → cmp a c ≠ .gt)
    (l : List α) (hinj : ∀ a ∈ l, ∀ b ∈ l, cmp a b = .eq → a = b) :
    List.insertionSort (fun a b => (cmp a b).swap ≠ Ordering.gt) l
      = (List.insertionSort (fun a b => cmp a b ≠ Ordering.gt) l).reverse := by
  classical
  have hDofA : ∀ a b, ((cmp b a ≠ Ordering.gt) ↔ ((cmp a b).swap ≠ Ordering.gt)) := by
    intro a b
    rw [hswap a b]
  have totalA : ∀ a b : α, (cmp a b ≠ Ordering.gt) ∨ (cmp b a ≠ Ordering.gt) := by
    intro a b
    by_cases h : cmp a b = .gt
    · right
      rw [hswap, h]
      simp [Ordering.swap]
    · exact Or.inl h
  have totalD : ∀ a b : α, ((cmp a b).swap ≠ Ordering.gt) ∨ ((cmp b a).swap ≠ Ordering.gt) := by
    intro a b
    rcases totalA b a with h | h
    · exact Or.inl ((hDofA a b).1 h)
    · exact Or.inr ((hDofA b a).1 h)
  have transD : ∀ a b c : α, ((cmp a b).swap ≠ Ordering.gt) →
      ((cmp b c).swap ≠ Ordering.gt) → ((cmp a c).swap ≠ Ordering.gt) := by
    intro a b c h1 h2
    exact (hDofA a c).1 (htrans c b a ((hDofA b c).2 h2) ((hDofA a b).2 h1))
  haveI instTA : IsTotal α (fun a b => cmp a b ≠ Ordering.gt) := ⟨totalA⟩
  haveI instTrA : IsTrans α (fun a b => cmp a b ≠ Ordering.gt) := ⟨htrans⟩
  haveI instTD : IsTotal α (fun a b => (cmp a b).swap ≠ Ordering.gt) := ⟨totalD⟩
  haveI instTrD : IsTrans α (fun a b => (cmp a b).swap ≠ Ordering.gt) := ⟨transD⟩
  have hsA : (List.insertionSort (fun a b => cmp a b ≠ Ordering.gt) l).Pairwise
      (fun a b => cmp a b ≠ Ordering.gt) :=
    List.sorted_insertionSort (fun a b => cmp a b ≠ Ordering.gt) l
  have hsD : (List.insertionSort (fun a b => (cmp a b).swap ≠ Ordering.gt) l).Pairwise
      (fun a b => (cmp a b).swap ≠ Ordering.gt) :=
    List.sorted_insertionSort (fun a b => (cmp a b).swap ≠ Ordering.gt) l
  have hrev : ((List.insertionSort (fun a b => cmp a b ≠ Ordering.gt) l).reverse).Pairwise
      (fun a b => (cmp a b).swap ≠ Ordering.gt) := by
    rw [List.pairwise_reverse]
    exact hsA.imp (fun {a b} h => (hDofA b a).1 h)
  have hperm : (List.insertionSort (fun a b => (cmp a b).swap ≠ Ordering.gt) l).Perm
      ((List.insertionSort (fun a b => cmp a b ≠ Ordering.gt) l).reverse) :=
    (List.perm_insertionSort _ l).trans
      ((List.perm_insertionSort (fun a b => cmp a b ≠ Ordering.gt) l).symm.trans
        (List.reverse_perm _).symm)
  apply eq_of_perm_of_pairwise_of_antisymm _ _ hperm hsD hrev
  intro a ha b hb h1 h2
  have hal : a ∈ l := (List.perm_insertionSort _ l).subset ha
  have hbl : b ∈ l := (List.perm_insertionSort _ l).subset hb
  have h1' : cmp a b ≠ .lt := (ordering_swap_ne_gt_iff _).1 h1
  have h2' : cmp a b ≠ .gt := by
    have := (ordering_swap_ne_gt_iff _).1 h2
    rw [hswap a b] at this
    intro hc
    apply this
    rw [hc]
    rfl
  have : cmp a b = .eq := by
    cases hc : cmp a b
    · exact absurd hc h1'
    · rfl
    · exact absurd hc h2'
  exact hinj a hal b hbl this

unseal Rat.add Rat.mul Rat.inv Rat.sub in
/-- C7 counterexample.  With two distinct rows whose sort keys tie (equal
duration display `"10:00"`), the stable descending sort keeps the pre-sort
order, while the reverse of the (equally stable) ascending sort swaps the
rows — so descending is *not* the exact reverse of ascending in the
presence of ties. -/
theorem desc_not_reverse_asc_on_ties :
    sortRows 2 false
        [["b.mp4", "x", "10:00", "", "", "", "", "", "", ""],
         ["a.mp4", "y", "10:00", "", "", "", "", "", "", ""]]
      ≠ (sortRows 2 true
        [["b.mp4", "x", "10:00", "", "", "", "", "", "", ""],
         ["a.mp4", "y", "10:00", "", "", "", "", "", "", ""]]).reverse := by
  decide

/-- C7 amended.  For every collection of rows and every sort column, *if no
two distinct rows of the collection compare equal on the sort key*, sorting
descending produces exactly the reverse of sorting ascending.  (With ties
the stable sort keeps the pre-sort relative order of the tied rows in both
directions, as the counterexample shows, so the two orders then differ.) -/
theorem sortRows_desc_reverse_asc (i : ℕ) (rows : List Fields)
    (hdist : ∀ a ∈ rows, ∀ b ∈ rows, rowCmp i a b = .eq → a = b) :
    sortRows i false rows = (sortRows i true rows).reverse := by
  rw [sortRows_true_eq, sortRows_false_eq]
  exact insertionSort_swap_reverse (rowCmp i) (rowCmp_swap i) (rowCmp_trans i)
    rows hdist

unseal Rat.add Rat.mul Rat.inv Rat.sub in
/-- C7 amended witness: two rows with distinct duration keys (`"20"` and
`"10"` parse as floats) sort descending into exactly the reverse of the
ascending order. -/
theorem sortRows_desc_reverse_asc_witness :
    sortRows 2 false
        [["a.mp4", "", "10", "", "", "", "", "", "", ""],
         ["b.mp4", "", "20", "", "", "", "", "", "", ""]]
      = (sortRows 2 true
        [["a.mp4", "", "10", "", "", "", "", "", "", ""],
         ["b.mp4", "", "20", "", "", "", "", "", "", ""]]).reverse :=
  sortRows_desc_reverse_asc 2
    [["a.mp4", "", "10", "", "", "", "", "", "", ""],
     ["b.mp4", "", "20", "", "", "", "", "", "", ""]] (by decide)

unseal Rat.add Rat.mul Rat.inv Rat.sub in
/-- C9.  Audio-only rows are well-formed: for every probe record with no
`"video"` stream and whose first `"audio"` stream has 2 channels and
bit rate `"128000"`, field extraction yields the ten-element row
`[name, size, duration, "", "", "", "", "", "", "2CH 128k"]` — the six
video-derived fields are empty while name, size, duration stay populated
and the audio summary is `"2CH 128k"`. -/
theorem audio_only_row (name : String) (flen : ℕ) (tname : String)
    (fn sz dur : String) (br : Option String)
    (streams : List Stream) (audio : Stream)
    (htr : truncate_middle name flen = some tname)
    (hv : streams.find? (fun s => s.codec_type == "video") = none)
    (ha : streams.find? (fun s => s.codec_type == "audio") = some audio)
    (hch : audio.channels = some 2)
    (hbr : audio.bit_rate = some "128000") :
    format_probe_output name ⟨streams, ⟨fn, sz, dur, br⟩⟩ flen
      = some [tname, format_size sz, format_duration dur,
              "", "", "", "", "", "", "2CH 128k"] := by
  have h1 : parseF64? "128000" = some (128000 : ℚ) := by decide
  have h2 : fmt0 ((128000 : ℚ) / 1000) = "128" := by decide
  simp only [format_probe_output, htr, hv, ha, hch, hbr, h1, h2]
  rfl

unseal Rat.add Rat.mul Rat.inv Rat.sub in
/-- C9 witness: the concrete audio-only probe `sampleProbe` (one audio
stream, 2 channels, bit rate `"128000"`). -/
theorem audio_only_row_witness :
    format_probe_output "song.mp3" sampleProbe 65
      = some ["song.mp3", format_size "2048", format_duration "61.5",
              "", "", "", "", "", "", "2CH 128k"] :=
  audio_only_row "song.mp3" 65 "song.mp3" "/a.mp3" "2048" "61.5" none
    [⟨"audio", none, none, none, none, none, some "128000", none, some 2⟩]
    ⟨"audio", none, none, none, none, none, some "128000", none, some 2⟩
    (by decide) (by decide) (by decide) (by decide) (by decide)

/-! ### Decimal round-trip infrastructure (claim C8) -/

theorem digitChar_spec (d : ℕ) (hd : d < 10) :
    (digitChar d).isDigit = true ∧ (digitChar d).toNat = 48 + d
    ∧ (digitChar d).isWhitespace = false
    ∧ digitChar d ≠ '.' ∧ digitChar d ≠ ':' := by
  interval_cases d <;> exact ⟨by decide, by decide, by decide, by decide, by decide⟩

theorem natDigitsRevAux_zero (fuel : ℕ) : natDigitsRevAux fuel 0 = [] := by
  cases fuel <;> rfl

theorem natDigitsRevAux_succ (fuel n : ℕ) :
    natDigitsRevAux (fuel + 1) n
      = if n = 0 then [] else n % 10 :: natDigitsRevAux fuel (n / 10) := rfl

theorem natDigitsRevAux_lt : ∀ fuel n, ∀ d ∈ natDigitsRevAux fuel n, d < 10 := by
  intro fuel
  induction fuel with
  | zero =>
    intro n d hd
    cases hd
  | succ fuel ih =>
    intro n d hd
    rw [natDigitsRevAux_succ] at hd
    by_cases h0 : n = 0
    · rw [if_pos h0] at hd
      cases hd
    · rw [if_neg h0] at hd
      rcases List.mem_cons.1 hd with h | h
      · subst h
        omega
      · exact ih (n / 10) d h

theorem natDigitsRevAux_ofDigits : ∀ fuel n, n < 10 ^ fuel →
    Nat.ofDigits 10 (natDigitsRevAux fuel n) = n := by
  intro fuel
  induction fuel with
  | zero =>
    intro n hn
    interval_cases n
    rfl
  | succ fuel ih =>
    intro n hn
    rw [natDigitsRevAux_succ]
    by_cases h0 : n = 0
    · rw [if_pos h0, h0]
      rfl
    · rw [if_neg h0, Nat.ofDigits_cons,
        ih (n / 10) (Nat.div_lt_of_lt_mul (by rw [pow_succ] at hn; omega))]
      omega

theorem natDigitsRevAux_ne_nil (fuel n : ℕ) (h0 : n ≠ 0) :
    natDigitsRevAux (fuel + 1) n ≠ [] := by
  rw [natDigitsRevAux_succ, if_neg h0]
  exact List.cons_ne_nil _ _

theorem foldl_mul_add_digits : ∀ (ds : List ℕ) (a : ℕ),
    List.foldl (fun x d => x * 10 + d) a ds
      = a * 10 ^ ds.length + Nat.ofDigits 10 ds.reverse := by
  intro ds
  induction ds with
  | nil =>
    intro a
    simp [Nat.ofDigits]
  | cons d ds ih =>
    intro a
    rw [List.foldl_cons, ih (a * 10 + d), List.reverse_cons, Nat.ofDigits_append]
    simp only [List.length_cons, List.length_reverse, Nat.ofDigits_singleton]
    ring

theorem foldl_digitChar_eq : ∀ (ds : List ℕ) (a : ℕ), (∀ d ∈ ds, d < 10) →
    List.foldl (fun x c => x * 10 + (c.toNat - 48)) a (ds.map digitChar)
      = List.foldl (fun x d => x * 10 + d) a ds := by
  intro ds
  induction ds with
  | nil =>
    intro a _
    rfl
  | cons d ds ih =>
    intro a h
    simp only [List.map_cons, List.foldl_cons]
    rw [(digitChar_spec d (h d (List.mem_cons_self d ds))).2.1,
      show 48 + d - 48 = d by omega]
    exact ih (a * 10 + d) (fun x hx => h x (List.mem_cons_of_mem d hx))

/-- Every character that `natRepr` emits is a `digitChar` of a digit. -/
theorem natRepr_chars (n : ℕ) :
    ∀ c ∈ (natRepr n).data, ∃ d, d < 10 ∧ c = digitChar d := by
  unfold natRepr
  by_cases h0 : n = 0
  · rw [if_pos h0]
    intro c hc
    rcases List.mem_cons.1 hc with h | h
    · exact ⟨0, by omega, h⟩
    · cases h
  · rw [if_neg h0]
    intro c hc
    rcases List.mem_map.1 hc with ⟨d, hd, hcd⟩
    exact ⟨d, natDigitsRevAux_lt 30 n d (List.mem_reverse.1 hd), hcd.symm⟩

/-- All-digit content of `natRepr`, plus the derived character facts. -/
theorem natRepr_data_facts (n : ℕ) :
    ∀ c ∈ (natRepr n).data, c.isDigit = true ∧ c.isWhitespace = false
      ∧ c ≠ '.' ∧ c ≠ ':' := by
  intro c hc
  rcases natRepr_chars n c hc with ⟨d, hd, rfl⟩
  rcases digitChar_spec d hd with ⟨h1, _, h3, h4, h5⟩
  exact ⟨h1, h3, h4, h5⟩

theorem natRepr_ne_nil (n : ℕ) : (natRepr n).data ≠ [] := by
  unfold natRepr
  by_cases h0 : n = 0
  · rw [if_pos h0]
    exact List.cons_ne_nil _ _
  · rw [if_neg h0]
    show ((natDigitsRevAux 30 n).reverse.map digitChar) ≠ []
    simp only [ne_eq, List.map_eq_nil_iff, List.reverse_eq_nil_iff]
    exact natDigitsRevAux_ne_nil 29 n h0

/-- `parse::<u64>` inverts `format!("{}")` (for the values of this
program, all below `10^30`). -/
theorem parseNat?_natRepr (n : ℕ) (hn : n < 10 ^ 30) :
    parseNat? (natRepr n) = some n := by
  by_cases h0 : n = 0
  · subst h0
    decide
  · have hd := natRepr_data_facts n
    have hcond : (natRepr n).data ≠ [] ∧ (natRepr n).data.all (·.isDigit) := by
      refine ⟨natRepr_ne_nil n, ?_⟩
      rw [List.all_eq_true]
      intro c hc
      exact (hd c hc).1
    unfold parseNat?
    rw [if_pos hcond]
    congr 1
    have hdata : (natRepr n).data = (natDigitsRevAux 30 n).reverse.map digitChar := by
      unfold natRepr
      rw [if_neg h0]
    rw [hdata, foldl_digitChar_eq _ 0
        (fun d hdm => natDigitsRevAux_lt 30 n d (List.mem_reverse.1 hdm)),
      foldl_mul_add_digits, List.reverse_reverse,
      natDigitsRevAux_ofDigits 30 n hn]
    omega

/-- The digit-value fold ignores a leading zero character. -/
theorem foldl_parse_cons_zero (l : List Char) :
    List.foldl (fun a c => a * 10 + (c.toNat - 48)) 0 ('0' :: l)
      = List.foldl (fun a c => a * 10 + (c.toNat - 48)) 0 l := by
  rw [List.foldl_cons, show (0 * 10 + ('0'.toNat - 48)) = 0 by decide]

/-- The digit-value fold of `natRepr` alone. -/
theorem foldl_natRepr (n : ℕ) (hn : n < 10 ^ 30) :
    List.foldl (fun a c => a * 10 + (c.toNat - 48)) 0 (natRepr n).data = n := by
  have h := parseNat?_natRepr n hn
  unfold parseNat? at h
  by_cases hcond : (natRepr n).data ≠ [] ∧ (natRepr n).data.all (·.isDigit)
  · rw [if_pos hcond] at h
    exact Option.some.inj h
  · rw [if_neg hcond] at h
    cases h

theorem pad2_data_facts (x : ℕ) :
    ∀ c ∈ (pad2 x).data, c.isDigit = true ∧ c.isWhitespace = false
      ∧ c ≠ '.' ∧ c ≠ ':' := by
  unfold pad2
  by_cases h10 : x < 10
  · rw [if_pos h10]
    intro c hc
    rw [String.data_append] at hc
    rcases List.mem_append.1 hc with h | h
    · rcases List.mem_cons.1 h with h | h
      · subst h
        exact ⟨by decide, by decide, by decide, by decide⟩
      · cases h
    · exact natRepr_data_facts x c h
  · rw [if_neg h10]
    exact natRepr_data_facts x

theorem pad2_ne_nil (x : ℕ) : (pad2 x).data ≠ [] := by
  unfold pad2
  by_cases h10 : x < 10
  · rw [if_pos h10, String.data_append]
    simp
  · rw [if_neg h10]
    exact natRepr_ne_nil x

theorem parseNat?_pad2 (x : ℕ) (hx : x < 10 ^ 30) :
    parseNat? (pad2 x) = some x := by
  unfold pad2
  by_cases h10 : x < 10
  · rw [if_pos h10]
    have hcond : ("0" ++ natRepr x).data ≠ [] ∧ ("0" ++ natRepr x).data.all (·.isDigit) := by
      constructor
      · rw [String.data_append]
        simp
      · rw [List.all_eq_true]
        intro c hc
        rw [String.data_append] at hc
        rcases List.mem_append.1 hc with h | h
        · rcases List.mem_cons.1 h with h | h
          · subst h
            decide
          · cases h
        · exact (natRepr_data_facts x c h).1
    unfold parseNat?
    rw [if_pos hcond]
    congr 1
    rw [String.data_append, show ("0" : String).data = ['0'] from rfl,
      List.singleton_append, foldl_parse_cons_zero, foldl_natRepr x hx]
  · rw [if_neg h10]
    exact parseNat?_natRepr x hx

theorem natRepr_length_one (n : ℕ) (h1 : n < 10) : (natRepr n).data.length = 1 := by
  unfold natRepr
  by_cases h0 : n = 0
  · rw [if_pos h0]
    rfl
  · rw [if_neg h0]
    show ((natDigitsRevAux 30 n).reverse.map digitChar).length = 1
    rw [show (30 : ℕ) = 29 + 1 from rfl, natDigitsRevAux_succ, if_neg h0,
      Nat.div_eq_of_lt h1, natDigitsRevAux_zero]
    rfl

theorem natRepr_length_two (n : ℕ) (h1 : 10 ≤ n) (h2 : n < 100) :
    (natRepr n).data.length = 2 := by
  unfold natRepr
  rw [if_neg (by omega)]
  show ((natDigitsRevAux 30 n).reverse.map digitChar).length = 2
  rw [show (30 : ℕ) = 29 + 1 from rfl, natDigitsRevAux_succ, if_neg (by omega),
    show (29 : ℕ) = 28 + 1 from rfl, natDigitsRevAux_succ,
    if_neg (by omega : ¬ n / 10 = 0),
    Nat.div_eq_of_lt (by omega : n / 10 < 10), natDigitsRevAux_zero]
  rfl

theorem pad2_length_two (r : ℕ) (hr : r < 100) : (pad2 r).length = 2 := by
  show (pad2 r).data.length = 2
  unfold pad2
  by_cases h10 : r < 10
  · rw [if_pos h10, String.data_append]
    rw [List.length_append, natRepr_length_one r h10]
    rfl
  · rw [if_neg h10]
    exact natRepr_length_two r (by omega) hr

/-! #### Split lemmas -/

theorem splitCharAux_no_sep (sep : Char) : ∀ (l acc : List Char),
    (∀ c ∈ l, c ≠ sep) → splitCharAux sep l acc = [acc.reverse ++ l] := by
  intro l
  induction l with
  | nil =>
    intro acc _
    simp [splitCharAux]
  | cons c l ih =>
    intro acc h
    have hc : ¬ c = sep := h c (List.mem_cons_self c l)
    simp only [splitCharAux]
    rw [if_neg hc, ih (c :: acc) (fun x hx => h x (List.mem_cons_of_mem c hx))]
    simp

theorem splitCharAux_sep_split (sep : Char) : ∀ (l acc rest : List Char),
    (∀ c ∈ l, c ≠ sep) →
    splitCharAux sep (l ++ sep :: rest) acc
      = (acc.reverse ++ l) :: splitCharAux sep rest [] := by
  intro l
  induction l with
  | nil =>
    intro acc rest _
    simp [splitCharAux]
  | cons c l ih =>
    intro acc rest h
    have hc : ¬ c = sep := h c (List.mem_cons_self c l)
    simp only [List.cons_append, splitCharAux, List.append_eq]
    rw [if_neg hc, ih (c :: acc) rest (fun x hx => h x (List.mem_cons_of_mem c hx))]
    simp

theorem splitOnChar_no_sep (sep : Char) (s : String)
    (h : ∀ c ∈ s.data, c ≠ sep) : splitOnChar sep s = [s] := by
  unfold splitOnChar
  rw [splitCharAux_no_sep sep s.data [] h]
  rfl

theorem splitOnChar_pair (sep : Char) (s x y : String)
    (hs : s.data = x.data ++ sep :: y.data)
    (hx : ∀ c ∈ x.data, c ≠ sep) (hy : ∀ c ∈ y.data, c ≠ sep) :
    splitOnChar sep s = [x, y] := by
  unfold splitOnChar
  rw [hs, splitCharAux_sep_split sep x.data [] y.data hx,
    splitCharAux_no_sep sep y.data [] hy]
  rfl

theorem splitOnChar_triple (sep : Char) (s x y z : String)
    (hs : s.data = x.data ++ sep :: (y.data ++ sep :: z.data))
    (hx : ∀ c ∈ x.data, c ≠ sep) (hy : ∀ c ∈ y.data, c ≠ sep)
    (hz : ∀ c ∈ z.data, c ≠ sep) :
    splitOnChar sep s = [x, y, z] := by
  unfold splitOnChar
  rw [hs, splitCharAux_sep_split sep x.data [] _ hx,
    splitCharAux_sep_split sep y.data [] z.data hy,
    splitCharAux_no_sep sep z.data [] hz]
  rfl

/-! #### `parse::<f64>` round-trips -/

theorem parseF64?_eq_single (s w : String) (h : splitOnChar '.' s = [w]) :
    parseF64? s = (parseNat? w).map (fun m => (m : ℚ)) := by
  unfold parseF64?
  rw [h]

theorem parseF64?_eq_pair (s w f : String) (h : splitOnChar '.' s = [w, f]) :
    parseF64? s
      = match parseNat? w, parseNat? f with
        | some n, some m => some ((n : ℚ) + (m : ℚ) / 10 ^ f.length)
        | _, _ => none := by
  unfold parseF64?
  rw [h]

theorem parseF64?_natRepr (n : ℕ) (hn : n < 10 ^ 30) :
    parseF64? (natRepr n) = some (n : ℚ) := by
  rw [parseF64?_eq_single (natRepr n) (natRepr n)
      (splitOnChar_no_sep '.' (natRepr n)
        (fun c hc => (natRepr_data_facts n c hc).2.2.1)),
    parseNat?_natRepr n hn]
  rfl

theorem parseF64?_pad2 (x : ℕ) (hx : x < 10 ^ 30) :
    parseF64? (pad2 x) = some (x : ℚ) := by
  rw [parseF64?_eq_single (pad2 x) (pad2 x)
      (splitOnChar_no_sep '.' (pad2 x)
        (fun c hc => (pad2_data_facts x c hc).2.2.1)),
    parseNat?_pad2 x hx]
  rfl

theorem parseF64?_eq_pair_some (s w f : String) (h : splitOnChar '.' s = [w, f])
    (a b : ℕ) (hw : parseNat? w = some a) (hf : parseNat? f = some b) :
    parseF64? s = some ((a : ℚ) + (b : ℚ) / 10 ^ f.length) := by
  rw [parseF64?_eq_pair s w f h, hw, hf]

/-! #### Ties-to-even rounding -/

theorem rhe_nonneg (x : ℚ) (hx : 0 ≤ x) : 0 ≤ rhe x := by
  unfold rhe
  have h0 : (0 : ℤ) ≤ ⌊x⌋ := Int.floor_nonneg.2 hx
  split_ifs <;> omega

theorem abs_rhe_sub (x : ℚ) : |(rhe x : ℚ) - x| ≤ 1 / 2 := by
  unfold rhe
  have h1 : (⌊x⌋ : ℚ) ≤ x := Int.floor_le x
  have h2 : x < ⌊x⌋ + 1 := Int.lt_floor_add_one x
  split_ifs with ha hb hc
  · rw [abs_le]
    constructor <;> linarith
  · rw [abs_le]
    push_cast
    constructor <;> linarith
  · rw [not_lt] at ha hb
    rw [abs_le]
    constructor <;> linarith
  · rw [not_lt] at ha hb
    rw [abs_le]
    push_cast
    constructor <;> linarith

theorem rhe_toNat_cast (x : ℚ) (hx : 0 ≤ x) :
    (((rhe x).toNat : ℕ) : ℚ) = ((rhe x : ℤ) : ℚ) := by
  exact_mod_cast congrArg (fun z : ℤ => (z : ℚ))
    (Int.toNat_of_nonneg (rhe_nonneg x hx))

/-- The rounded hundredths recovered by parsing `fmt2`. -/
theorem parseF64?_fmt2 (q : ℚ) (hn30 : (rhe (q * 100)).toNat < 10 ^ 30) :
    parseF64? (fmt2 q) = some (((rhe (q * 100)).toNat : ℚ) / 100) := by
  set n := (rhe (q * 100)).toNat with hn
  have hdata : (fmt2 q).data
      = (natRepr (n / 100)).data ++ '.' :: (pad2 (n % 100)).data := by
    show (natRepr (n / 100) ++ "." ++ pad2 (n % 100)).data = _
    rw [String.data_append, String.data_append, List.append_assoc]
    rfl
  have hsplit : splitOnChar '.' (fmt2 q) = [natRepr (n / 100), pad2 (n % 100)] :=
    splitOnChar_pair '.' (fmt2 q) _ _ hdata
      (fun c hc => (natRepr_data_facts _ c hc).2.2.1)
      (fun c hc => (pad2_data_facts _ c hc).2.2.1)
  rw [parseF64?_eq_pair_some _ _ _ hsplit (n / 100) (n % 100)
      (parseNat?_natRepr _ (by omega)) (parseNat?_pad2 _ (by omega)),
    pad2_length_two _ (by omega : n % 100 < 100)]
  congr 1
  have hmod : (100 : ℚ) * ((n / 100 : ℕ) : ℚ) + ((n % 100 : ℕ) : ℚ) = (n : ℚ) := by
    exact_mod_cast congrArg (Nat.cast : ℕ → ℚ) (Nat.div_add_mod n 100)
  field_simp
  linarith

/-! #### `split_whitespace` lemmas -/

theorem splitWsAux_app : ∀ (l rest acc : List Char),
    (∀ c ∈ l, c.isWhitespace = false) →
    splitWsAux (l ++ rest) acc = splitWsAux rest (l.reverse ++ acc) := by
  intro l
  induction l with
  | nil =>
    intro rest acc _
    simp
  | cons c l ih =>
    intro rest acc h
    have hc : c.isWhitespace = false := h c (List.mem_cons_self c l)
    simp only [List.cons_append, splitWsAux, List.append_eq]
    rw [if_neg (by rw [hc]; simp),
      ih rest (c :: acc) (fun x hx => h x (List.mem_cons_of_mem c hx))]
    simp

theorem splitWsAux_nil_of_ne (acc : List Char) (h : acc ≠ []) :
    splitWsAux [] acc = [acc.reverse] := by
  cases acc with
  | nil => exact absurd rfl h
  | cons a as => rfl

theorem splitWsAux_ws_cons (c : Char) (rest acc : List Char)
    (hc : c.isWhitespace = true) (hacc : acc ≠ []) :
    splitWsAux (c :: rest) acc = acc.reverse :: splitWsAux rest [] := by
  cases acc with
  | nil => exact absurd rfl hacc
  | cons a as =>
    simp only [splitWsAux]
    rw [if_pos hc, if_neg (by simp)]

theorem splitWs_pair (s x u : String)
    (hs : s.data = x.data ++ ' ' :: u.data)
    (hx1 : x.data ≠ []) (hxw : ∀ c ∈ x.data, c.isWhitespace = false)
    (hu1 : u.data ≠ []) (huw : ∀ c ∈ u.data, c.isWhitespace = false) :
    splitWs s = [x, u] := by
  unfold splitWs
  rw [hs, splitWsAux_app x.data (' ' :: u.data) [] hxw, List.append_nil,
    splitWsAux_ws_cons ' ' u.data x.data.reverse (by decide) (by simp [hx1]),
    List.reverse_reverse]
  have hu : splitWsAux u.data [] = [u.data] := by
    have happ := splitWsAux_app u.data [] [] huw
    rw [List.append_nil, List.append_nil] at happ
    rw [happ, splitWsAux_nil_of_ne _ (by simp [hu1]), List.reverse_reverse]
  rw [hu]
  rfl

/-! #### Saturating cast bounds -/

/-- The `as u64` cast moves a value by less than 1 (truncation) and the
saturation can only bring it closer to any in-range target. -/
theorem f64ToU64_near (v : ℚ) (b : ℕ) (hb : b < 2 ^ 64) (e : ℚ)
    (hnear : |v - (b : ℚ)| ≤ e) :
    |((f64ToU64 v : ℕ) : ℚ) - (b : ℚ)| ≤ e + 1 := by
  have he : 0 ≤ e := le_trans (abs_nonneg _) hnear
  rw [abs_le] at hnear
  have hv1 : (b : ℚ) - e ≤ v := by linarith [hnear.1]
  have hv2 : v ≤ (b : ℚ) + e := by linarith [hnear.2]
  have hfl : (⌊v⌋ : ℚ) ≤ v := Int.floor_le v
  have hfg : v < ⌊v⌋ + 1 := Int.lt_floor_add_one v
  unfold f64ToU64
  by_cases hm : ⌊v⌋.toNat ≤ 2 ^ 64 - 1
  · rw [min_eq_left hm]
    by_cases hv0 : 0 ≤ ⌊v⌋
    · have hcast : ((⌊v⌋.toNat : ℕ) : ℚ) = (⌊v⌋ : ℚ) := by
        exact_mod_cast congrArg (fun z : ℤ => (z : ℚ)) (Int.toNat_of_nonneg hv0)
      rw [abs_le, hcast]
      constructor <;> linarith
    · rw [Int.toNat_of_nonpos (by omega)]
      have hfneg : (⌊v⌋ : ℚ) ≤ -1 := by
        have : ⌊v⌋ ≤ -1 := by omega
        exact_mod_cast this
      rw [abs_le]
      constructor
      · push_cast
        have hb0 : (0 : ℚ) ≤ (b : ℚ) := Nat.cast_nonneg b
        linarith
      · push_cast
        have hb0 : (0 : ℚ) ≤ (b : ℚ) := Nat.cast_nonneg b
        linarith
  · rw [min_eq_right (by omega)]
    have hv0 : (2 : ℤ) ^ 64 ≤ ⌊v⌋ := by omega
    have hvbig : ((2 : ℚ) ^ 64) ≤ v := by
      calc ((2 : ℚ) ^ 64) = (((2 : ℤ) ^ 64 : ℤ) : ℚ) := by push_cast; ring
        _ ≤ (⌊v⌋ : ℚ) := by exact_mod_cast hv0
        _ ≤ v := hfl
    have hcast : (((2 ^ 64 - 1 : ℕ) : ℕ) : ℚ) = (2 : ℚ) ^ 64 - 1 := by
      have h1 : (1 : ℕ) ≤ 2 ^ 64 := Nat.one_le_two_pow
      push_cast [Nat.cast_sub h1]
      ring
    have hble : (b : ℚ) ≤ (2 : ℚ) ^ 64 - 1 := by
      have : (b : ℕ) ≤ 2 ^ 64 - 1 := by omega
      calc (b : ℚ) ≤ ((2 ^ 64 - 1 : ℕ) : ℚ) := by exact_mod_cast this
        _ = (2 : ℚ) ^ 64 - 1 := hcast
    rw [abs_le, hcast]
    constructor
    · linarith
    · linarith

/-- The numeric core of the size round-trip for one binary unit: format to
rounded hundredths of the unit, parse back, truncate-saturate — the result
is within one hundredth of the unit of the original byte count. -/
theorem size_roundtrip_unit (b unit : ℕ) (hunit : 200 ≤ unit) (hb : b < 2 ^ 64) :
    |((f64ToU64 ((((rhe ((b : ℚ) / (unit : ℚ) * 100)).toNat : ℕ) : ℚ) / 100
        * (unit : ℚ)) : ℕ) : ℚ) - (b : ℚ)| ≤ (unit : ℚ) / 100 := by
  have hu0 : (0 : ℚ) < (unit : ℚ) := by
    have : (0 : ℕ) < unit := by omega
    exact_mod_cast this
  have hq0 : 0 ≤ (b : ℚ) / (unit : ℚ) * 100 := by positivity
  have hn := rhe_toNat_cast ((b : ℚ) / (unit : ℚ) * 100) hq0
  have hr := abs_rhe_sub ((b : ℚ) / (unit : ℚ) * 100)
  have hv : |(((rhe ((b : ℚ) / (unit : ℚ) * 100)).toNat : ℕ) : ℚ) / 100
      * (unit : ℚ) - (b : ℚ)| ≤ (unit : ℚ) / 200 := by
    rw [hn]
    have heq : ((rhe ((b : ℚ) / (unit : ℚ) * 100) : ℤ) : ℚ) / 100 * (unit : ℚ)
        - (b : ℚ)
        = (((rhe ((b : ℚ) / (unit : ℚ) * 100) : ℤ) : ℚ)
            - (b : ℚ) / (unit : ℚ) * 100) * ((unit : ℚ) / 100) := by
      field_simp
      ring
    rw [heq, abs_mul, abs_of_nonneg (by positivity : (0 : ℚ) ≤ (unit : ℚ) / 100)]
    calc |((rhe ((b : ℚ) / (unit : ℚ) * 100) : ℤ) : ℚ)
          - (b : ℚ) / (unit : ℚ) * 100| * ((unit : ℚ) / 100)
        ≤ (1 / 2) * ((unit : ℚ) / 100) :=
          mul_le_mul_of_nonneg_right hr (by positivity)
      _ = (unit : ℚ) / 200 := by ring
  have hres := f64ToU64_near _ b hb ((unit : ℚ) / 200) hv
  have h200 : (200 : ℚ) ≤ (unit : ℚ) := by exact_mod_cast hunit
  calc |((f64ToU64 ((((rhe ((b : ℚ) / (unit : ℚ) * 100)).toNat : ℕ) : ℚ) / 100
        * (unit : ℚ)) : ℕ) : ℚ) - (b : ℚ)|
      ≤ (unit : ℚ) / 200 + 1 := hres
    _ ≤ (unit : ℚ) / 100 := by linarith

/-! #### The size round-trip -/

theorem fmt2_data (q : ℚ) : (fmt2 q).data
    = (natRepr ((rhe (q * 100)).toNat / 100)).data
      ++ '.' :: (pad2 ((rhe (q * 100)).toNat % 100)).data := by
  show (natRepr _ ++ "." ++ pad2 _).data = _
  rw [String.data_append, String.data_append, List.append_assoc]
  rfl

theorem fmt2_ne_nil (q : ℚ) : (fmt2 q).data ≠ [] := by
  rw [fmt2_data]
  simp

theorem fmt2_data_ws_free (q : ℚ) : ∀ c ∈ (fmt2 q).data, c.isWhitespace = false := by
  rw [fmt2_data]
  intro c hc
  rcases List.mem_append.1 hc with h | h
  · exact (natRepr_data_facts _ c h).2.1
  · rcases List.mem_cons.1 h with h | h
    · subst h
      decide
    · exact (pad2_data_facts _ c h).2.1

theorem splitWs_fmt2_GB (q : ℚ) : splitWs (fmt2 q ++ " GB") = [fmt2 q, "GB"] := by
  apply splitWs_pair _ (fmt2 q) "GB"
  · rw [String.data_append]
  · exact fmt2_ne_nil q
  · exact fmt2_data_ws_free q
  · decide
  · decide

theorem splitWs_fmt2_MB (q : ℚ) : splitWs (fmt2 q ++ " MB") = [fmt2 q, "MB"] := by
  apply splitWs_pair _ (fmt2 q) "MB"
  · rw [String.data_append]
  · exact fmt2_ne_nil q
  · exact fmt2_data_ws_free q
  · decide
  · decide

theorem splitWs_fmt2_KB (q : ℚ) : splitWs (fmt2 q ++ " KB") = [fmt2 q, "KB"] := by
  apply splitWs_pair _ (fmt2 q) "KB"
  · rw [String.data_append]
  · exact fmt2_ne_nil q
  · exact fmt2_data_ws_free q
  · decide
  · decide

theorem splitWs_natRepr_B (b : ℕ) : splitWs (natRepr b ++ " B") = [natRepr b, "B"] := by
  apply splitWs_pair _ (natRepr b) "B"
  · rw [String.data_append]
  · exact natRepr_ne_nil b
  · exact fun c hc => (natRepr_data_facts b c hc).2.1
  · decide
  · decide

theorem parse_size_GB (s x : String) (hsplit : splitWs s = [x, "GB"]) :
    parse_size s = f64ToU64 ((parseF64? x).getD 0 * (1024 * 1024 * 1024 : ℚ)) := by
  unfold parse_size
  rw [hsplit]
  rfl

theorem parse_size_MB (s x : String) (hsplit : splitWs s = [x, "MB"]) :
    parse_size s = f64ToU64 ((parseF64? x).getD 0 * (1024 * 1024 : ℚ)) := by
  unfold parse_size
  rw [hsplit]
  rfl

theorem parse_size_KB (s x : String) (hsplit : splitWs s = [x, "KB"]) :
    parse_size s = f64ToU64 ((parseF64? x).getD 0 * (1024 : ℚ)) := by
  unfold parse_size
  rw [hsplit]
  rfl

theorem parse_size_B (s x : String) (hsplit : splitWs s = [x, "B"]) :
    parse_size s = f64ToU64 ((parseF64? x).getD 0) := by
  unfold parse_size
  rw [hsplit]
  rfl

theorem format_size_eq (b : ℕ) (hb : b < 10 ^ 30) :
    format_size (natRepr b)
      = if GB ≤ b then fmt2 ((b : ℚ) / (GB : ℚ)) ++ " GB"
        else if MB ≤ b then fmt2 ((b : ℚ) / (MB : ℚ)) ++ " MB"
        else if KB ≤ b then fmt2 ((b : ℚ) / (KB : ℚ)) ++ " KB"
        else natRepr b ++ " B" := by
  unfold format_size
  rw [parseNat?_natRepr b hb]

/-- Parsing the rounded two-decimal display back and scaling by the unit
stays within a hundredth of the unit of the original count. -/
theorem roundtrip_fmt2_unit (b unit : ℕ) (h200 : 200 ≤ unit) (hb : b < 2 ^ 64) :
    |((f64ToU64 ((parseF64? (fmt2 ((b : ℚ) / (unit : ℚ)))).getD 0 * (unit : ℚ)) : ℕ) : ℚ)
      - (b : ℚ)| ≤ (unit : ℚ) / 100 := by
  have hq0 : (0 : ℚ) ≤ (b : ℚ) / (unit : ℚ) * 100 := by positivity
  have hn30 : (rhe ((b : ℚ) / (unit : ℚ) * 100)).toNat < 10 ^ 30 := by
    have h1 := abs_rhe_sub ((b : ℚ) / (unit : ℚ) * 100)
    have h2 := rhe_toNat_cast _ hq0
    rw [abs_le] at h1
    have hu1 : (1 : ℚ) ≤ (unit : ℚ) := by
      have : (1 : ℕ) ≤ unit := by omega
      exact_mod_cast this
    have hx : (b : ℚ) / (unit : ℚ) * 100 ≤ (b : ℚ) * 100 := by
      have := div_le_self (Nat.cast_nonneg b) hu1
      linarith
    have hbQ : (b : ℚ) < 2 ^ 64 := by exact_mod_cast hb
    have hpow : ((2 : ℚ) ^ 64) * 100 + 1 < 10 ^ 30 := by norm_num
    have hQ : ((((rhe ((b : ℚ) / (unit : ℚ) * 100)).toNat : ℕ)) : ℚ) < 10 ^ 30 := by
      rw [h2]
      linarith
    exact_mod_cast hQ
  rw [parseF64?_fmt2 _ hn30, Option.getD_some]
  exact size_roundtrip_unit b unit h200 hb

/-- The per-unit tolerance of the amended round-trip claim: one hundredth
of the displayed unit (the value of the last displayed digit). -/
def sizeTol (b : ℕ) : ℚ :=
  if GB ≤ b then (GB : ℚ) / 100
  else if MB ≤ b then (MB : ℚ) / 100
  else if KB ≤ b then (KB : ℚ) / 100
  else 0

theorem parse_format_size (b : ℕ) (hb : b < 2 ^ 64) :
    |((parse_size (format_size (natRepr b)) : ℕ) : ℚ) - (b : ℚ)| ≤ sizeTol b := by
  have hb30 : b < 10 ^ 30 := by
    have : (2 : ℕ) ^ 64 < 10 ^ 30 := by norm_num
    omega
  rw [format_size_eq b hb30]
  unfold sizeTol
  by_cases hGB : GB ≤ b
  · rw [if_pos hGB, if_pos hGB,
      parse_size_GB _ (fmt2 ((b : ℚ) / (GB : ℚ))) (splitWs_fmt2_GB _)]
    rw [show ((1024 * 1024 * 1024 : ℚ)) = ((GB : ℕ) : ℚ) by norm_num [GB, MB, KB]]
    exact roundtrip_fmt2_unit b GB (by norm_num [GB, MB, KB]) hb
  · rw [if_neg hGB, if_neg hGB]
    by_cases hMB : MB ≤ b
    · rw [if_pos hMB, if_pos hMB,
        parse_size_MB _ (fmt2 ((b : ℚ) / (MB : ℚ))) (splitWs_fmt2_MB _)]
      rw [show ((1024 * 1024 : ℚ)) = ((MB : ℕ) : ℚ) by norm_num [MB, KB]]
      exact roundtrip_fmt2_unit b MB (by norm_num [MB, KB]) hb
    · rw [if_neg hMB, if_neg hMB]
      by_cases hKB : KB ≤ b
      · rw [if_pos hKB, if_pos hKB,
          parse_size_KB _ (fmt2 ((b : ℚ) / (KB : ℚ))) (splitWs_fmt2_KB _)]
        rw [show ((1024 : ℚ)) = ((KB : ℕ) : ℚ) by norm_num [KB]]
        exact roundtrip_fmt2_unit b KB (by norm_num [KB]) hb
      · rw [if_neg hKB, if_neg hKB,
          parse_size_B _ (natRepr b) (splitWs_natRepr_B b)]
        rw [parseF64?_natRepr b hb30, Option.getD_some]
        have hfl : f64ToU64 ((b : ℕ) : ℚ) = b := by
          unfold f64ToU64
          rw [Int.floor_natCast]
          have : (b : ℤ).toNat = b := Int.toNat_natCast b
          rw [this, min_eq_left (by omega)]
        rw [hfl]
        simp

/-! #### The duration round-trip -/

theorem format_duration_eq_some (s : String) (d : ℚ) (h : parseF64? s = some d) :
    format_duration s
      = if 0 < ((⌊d / 3600⌋ : ℤ) : ℚ) then
          pad2 (f64ToU32 ((⌊d / 3600⌋ : ℤ) : ℚ)) ++ ":"
            ++ pad2 (f64ToU32 ((⌊qmod d 3600 / 60⌋ : ℤ) : ℚ)) ++ ":"
            ++ pad2 (f64ToU32 (qmod d 60))
        else
          pad2 (f64ToU32 ((⌊qmod d 3600 / 60⌋ : ℤ) : ℚ)) ++ ":"
            ++ pad2 (f64ToU32 (qmod d 60)) := by
  unfold format_duration
  rw [h]

theorem parse_duration_two (s x y : String) (h : splitOnChar ':' s = [x, y]) :
    parse_duration_to_secs s
      = (parseF64? x).getD 0 * 60 + (parseF64? y).getD 0 := by
  unfold parse_duration_to_secs
  rw [h]

theorem parse_duration_three (s x y z : String) (h : splitOnChar ':' s = [x, y, z]) :
    parse_duration_to_secs s
      = (parseF64? x).getD 0 * 3600 + (parseF64? y).getD 0 * 60
        + (parseF64? z).getD 0 := by
  unfold parse_duration_to_secs
  rw [h]

/-- Floor decomposition of a non-negative duration into hours, minutes and
seconds: the three displayed integers recombine to `⌊d⌋`. -/
theorem floor_hms (d : ℚ) (hd : 0 ≤ d) :
    0 ≤ ⌊d / 3600⌋
    ∧ 0 ≤ ⌊qmod d 3600 / 60⌋ ∧ ⌊qmod d 3600 / 60⌋ < 60
    ∧ 0 ≤ ⌊qmod d 60⌋ ∧ ⌊qmod d 60⌋ < 60
    ∧ 3600 * ⌊d / 3600⌋ + 60 * ⌊qmod d 3600 / 60⌋ + ⌊qmod d 60⌋ = ⌊d⌋ := by
  have hH0 : 0 ≤ ⌊d / 3600⌋ := Int.floor_nonneg.2 (by positivity)
  have hq1 : qmod d 3600 / 60 = d / 60 - ((60 * ⌊d / 3600⌋ : ℤ) : ℚ) := by
    unfold qmod
    push_cast
    ring
  have hM : ⌊qmod d 3600 / 60⌋ = ⌊d / 60⌋ - 60 * ⌊d / 3600⌋ := by
    rw [hq1, Int.floor_sub_int]
  have hq2 : qmod d 60 = d - ((60 * ⌊d / 60⌋ : ℤ) : ℚ) := by
    unfold qmod
    push_cast
    ring
  have hS : ⌊qmod d 60⌋ = ⌊d⌋ - 60 * ⌊d / 60⌋ := by
    rw [hq2, Int.floor_sub_int]
  have hHle : ((⌊d / 3600⌋ : ℤ) : ℚ) ≤ d / 3600 := Int.floor_le _
  have hHgt : d / 3600 < ⌊d / 3600⌋ + 1 := Int.lt_floor_add_one _
  have hKle : ((⌊d / 60⌋ : ℤ) : ℚ) ≤ d / 60 := Int.floor_le _
  have hKgt : d / 60 < ⌊d / 60⌋ + 1 := Int.lt_floor_add_one _
  have hK1 : 60 * ⌊d / 3600⌋ ≤ ⌊d / 60⌋ := by
    apply Int.le_floor.2
    push_cast
    rw [le_div_iff₀ (by norm_num : (0 : ℚ) < 60)]
    have h1 : ((⌊d / 3600⌋ : ℤ) : ℚ) * 3600 ≤ d := by
      rw [← le_div_iff₀ (by norm_num : (0 : ℚ) < 3600)]
      exact hHle
    linarith
  have hK2 : ⌊d / 60⌋ < 60 * ⌊d / 3600⌋ + 60 := by
    apply Int.floor_lt.2
    push_cast
    rw [div_lt_iff₀ (by norm_num : (0 : ℚ) < 60)]
    have h1 : d < (((⌊d / 3600⌋ : ℤ) : ℚ) + 1) * 3600 := by
      rw [← div_lt_iff₀ (by norm_num : (0 : ℚ) < 3600)]
      exact hHgt
    linarith
  have hd1 : 60 * ⌊d / 60⌋ ≤ ⌊d⌋ := by
    apply Int.le_floor.2
    push_cast
    have h1 : ((⌊d / 60⌋ : ℤ) : ℚ) * 60 ≤ d := by
      rw [← le_div_iff₀ (by norm_num : (0 : ℚ) < 60)]
      exact hKle
    linarith
  have hd2 : ⌊d⌋ < 60 * ⌊d / 60⌋ + 60 := by
    apply Int.floor_lt.2
    push_cast
    have h1 : d < (((⌊d / 60⌋ : ℤ) : ℚ) + 1) * 60 := by
      rw [← div_lt_iff₀ (by norm_num : (0 : ℚ) < 60)]
      exact hKgt
    linarith
  refine ⟨hH0, ?_, ?_, ?_, ?_, ?_⟩ <;> omega

theorem parse_format_duration (s : String) (d : ℚ) (hps : parseF64? s = some d)
    (hd : 0 ≤ d) (hsat : ⌊d / 3600⌋ < 2 ^ 32) :
    |parse_duration_to_secs (format_duration s) - d| ≤ 1 := by
  obtain ⟨hH0, hM0, hM60, hS0, hS60, hsum⟩ := floor_hms d hd
  have hfl : ((⌊d⌋ : ℤ) : ℚ) ≤ d := Int.floor_le d
  have hfg : d < ⌊d⌋ + 1 := Int.lt_floor_add_one d
  have hpow32 : ((2 : ℤ) ^ 32) = 4294967296 := by norm_num
  have hpow30 : ((10 : ℕ) ^ 30) = 1000000000000000000000000000000 := by norm_num
  rw [format_duration_eq_some s d hps]
  have hMcast : f64ToU32 ((⌊qmod d 3600 / 60⌋ : ℤ) : ℚ)
      = (⌊qmod d 3600 / 60⌋).toNat := by
    unfold f64ToU32
    rw [Int.floor_intCast]
    exact min_eq_left (by omega)
  have hScast : f64ToU32 (qmod d 60) = (⌊qmod d 60⌋).toNat := by
    unfold f64ToU32
    exact min_eq_left (by omega)
  have hpM : parseF64? (pad2 (⌊qmod d 3600 / 60⌋).toNat)
      = some ((((⌊qmod d 3600 / 60⌋).toNat : ℕ)) : ℚ) :=
    parseF64?_pad2 _ (by omega)
  have hpS : parseF64? (pad2 (⌊qmod d 60⌋).toNat)
      = some ((((⌊qmod d 60⌋).toNat : ℕ)) : ℚ) :=
    parseF64?_pad2 _ (by omega)
  by_cases hH : 0 < ((⌊d / 3600⌋ : ℤ) : ℚ)
  · rw [if_pos hH]
    have hHcast : f64ToU32 ((⌊d / 3600⌋ : ℤ) : ℚ) = (⌊d / 3600⌋).toNat := by
      unfold f64ToU32
      rw [Int.floor_intCast]
      exact min_eq_left (by omega)
    rw [hHcast, hMcast, hScast]
    have hpH : parseF64? (pad2 (⌊d / 3600⌋).toNat)
        = some ((((⌊d / 3600⌋).toNat : ℕ)) : ℚ) :=
      parseF64?_pad2 _ (by omega)
    have hdata : (pad2 (⌊d / 3600⌋).toNat ++ ":" ++ pad2 (⌊qmod d 3600 / 60⌋).toNat
          ++ ":" ++ pad2 (⌊qmod d 60⌋).toNat).data
        = (pad2 (⌊d / 3600⌋).toNat).data
          ++ ':' :: ((pad2 (⌊qmod d 3600 / 60⌋).toNat).data
            ++ ':' :: (pad2 (⌊qmod d 60⌋).toNat).data) := by
      simp only [String.data_append, List.append_assoc,
        show (":" : String).data = [':'] from rfl, List.singleton_append,
        List.cons_append, List.nil_append]
    rw [parse_duration_three _ _ _ _ (splitOnChar_triple ':' _ _ _ _ hdata
        (fun c hc => (pad2_data_facts _ c hc).2.2.2)
        (fun c hc => (pad2_data_facts _ c hc).2.2.2)
        (fun c hc => (pad2_data_facts _ c hc).2.2.2)),
      hpH, hpM, hpS]
    simp only [Option.getD_some]
    have hcast : ((((⌊d / 3600⌋).toNat : ℕ)) : ℚ) * 3600
        + ((((⌊qmod d 3600 / 60⌋).toNat : ℕ)) : ℚ) * 60
        + ((((⌊qmod d 60⌋).toNat : ℕ)) : ℚ) = ((⌊d⌋ : ℤ) : ℚ) := by
      have e1 : ((⌊d / 3600⌋).toNat : ℤ) = ⌊d / 3600⌋ := Int.toNat_of_nonneg hH0
      have e2 : ((⌊qmod d 3600 / 60⌋).toNat : ℤ) = ⌊qmod d 3600 / 60⌋ :=
        Int.toNat_of_nonneg hM0
      have e3 : ((⌊qmod d 60⌋).toNat : ℤ) = ⌊qmod d 60⌋ := Int.toNat_of_nonneg hS0
      have hz : (((⌊d / 3600⌋).toNat : ℕ) : ℤ) * 3600
          + (((⌊qmod d 3600 / 60⌋).toNat : ℕ) : ℤ) * 60
          + (((⌊qmod d 60⌋).toNat : ℕ) : ℤ) = ⌊d⌋ := by
        rw [e1, e2, e3]
        omega
      exact_mod_cast congrArg (fun z : ℤ => (z : ℚ)) hz
    rw [hcast, abs_le]
    constructor <;> linarith
  · rw [if_neg hH]
    have hHeq : ⌊d / 3600⌋ = 0 := by
      have h0 : ((⌊d / 3600⌋ : ℤ) : ℚ) ≤ 0 := le_of_not_lt hH
      have h1 : ⌊d / 3600⌋ ≤ 0 := by exact_mod_cast h0
      omega
    rw [hMcast, hScast]
    have hdata : (pad2 (⌊qmod d 3600 / 60⌋).toNat ++ ":"
          ++ pad2 (⌊qmod d 60⌋).toNat).data
        = (pad2 (⌊qmod d 3600 / 60⌋).toNat).data
          ++ ':' :: (pad2 (⌊qmod d 60⌋).toNat).data := by
      simp only [String.data_append, List.append_assoc,
        show (":" : String).data = [':'] from rfl, List.singleton_append,
        List.cons_append, List.nil_append]
    rw [parse_duration_two _ _ _ (splitOnChar_pair ':' _ _ _ hdata
        (fun c hc => (pad2_data_facts _ c hc).2.2.2)
        (fun c hc => (pad2_data_facts _ c hc).2.2.2)),
      hpM, hpS]
    simp only [Option.getD_some]
    have hcast : ((((⌊qmod d 3600 / 60⌋).toNat : ℕ)) : ℚ) * 60
        + ((((⌊qmod d 60⌋).toNat : ℕ)) : ℚ) = ((⌊d⌋ : ℤ) : ℚ) := by
      have e2 : ((⌊qmod d 3600 / 60⌋).toNat : ℤ) = ⌊qmod d 3600 / 60⌋ :=
        Int.toNat_of_nonneg hM0
      have e3 : ((⌊qmod d 60⌋).toNat : ℤ) = ⌊qmod d 60⌋ := Int.toNat_of_nonneg hS0
      have hz : (((⌊qmod d 3600 / 60⌋).toNat : ℕ) : ℤ) * 60
          + (((⌊qmod d 60⌋).toNat : ℕ) : ℤ) = ⌊d⌋ := by
        rw [e2, e3]
        omega
      exact_mod_cast congrArg (fun z : ℤ => (z : ℚ)) hz
    rw [hcast, abs_le]
    constructor <;> linarith

unseal Rat.add Rat.mul Rat.inv Rat.sub in
/-- C8 counterexample.  The claim quantifies over *every* non-negative
seconds value, but the `hours as u32` cast saturates: at
`d = 3600 · 2^32 = 15461882265600` seconds the formatted string is
`"4294967295:00:00"` and the reverse parse differs from `d` by 3600
seconds, far beyond the claimed 1-second precision. -/
theorem duration_roundtrip_saturation_cex :
    parseF64? "15461882265600" = some (15461882265600 : ℚ)
    ∧ parse_duration_to_secs (format_duration "15461882265600") = 15461882262000
    ∧ ¬ |parse_duration_to_secs (format_duration "15461882265600")
          - (15461882265600 : ℚ)| ≤ 1 := by
  refine ⟨by decide, by decide, ?_⟩
  intro h
  rw [abs_le] at h
  have h2 : parse_duration_to_secs (format_duration "15461882265600")
      = 15461882262000 := by decide
  rw [h2] at h
  have := h.1
  norm_num at this

unseal Rat.add Rat.mul Rat.inv Rat.sub in
/-- C8 amended.  Round-trip within the displayed precision, stated with
the two caveats the code forces: (size) for every `u64` byte count the
reverse-parsed value is within one last displayed digit — `0.01` of the
chosen 1024-based unit (exact below 1 KB); (duration) for every
non-negative seconds value *below the `u32` saturation range of the hours
field* (`⌊d/3600⌋ < 2^32`) the reverse-parsed duration is within 1 second
of the original. -/
theorem roundtrip_formatting_amended :
    (∀ b : ℕ, b < 2 ^ 64 →
      |((parse_size (format_size (natRepr b)) : ℕ) : ℚ) - (b : ℚ)| ≤ sizeTol b)
    ∧ (∀ (s : String) (d : ℚ), parseF64? s = some d → 0 ≤ d →
        ⌊d / 3600⌋ < 2 ^ 32 →
        |parse_duration_to_secs (format_duration s) - d| ≤ 1) :=
  ⟨fun b hb => parse_format_size b hb,
   fun s d h1 h2 h3 => parse_format_duration s d h1 h2 h3⟩

unseal Rat.add Rat.mul Rat.inv Rat.sub in
/-- C8 amended witness: 1,500,000,000 bytes round-trip within 0.01 GB, and
the 61.5-second duration `"61.5"` round-trips within 1 second. -/
theorem roundtrip_formatting_amended_witness :
    |((parse_size (format_size (natRepr 1500000000)) : ℕ) : ℚ)
        - (1500000000 : ℚ)| ≤ sizeTol 1500000000
    ∧ |parse_duration_to_secs (format_duration "61.5") - (123 / 2 : ℚ)| ≤ 1 :=
  ⟨roundtrip_formatting_amended.1 1500000000 (by decide),
   roundtrip_formatting_amended.2 "61.5" (123 / 2 : ℚ) (by decide) (by decide)
     (by decide)⟩

end Mediainfo
